import Mathlib

/-!
Draft.js immutable document model.

A shallow embedding of

* `src/model/immutable/CharacterMetadata.js`
* `src/model/immutable/ContentState.js`
* `src/model/transaction/applyEntityToContentBlock.js`
* `src/component/handlers/edit/commands/moveSelectionBackward.js`

JavaScript objects that are compared by reference carry an explicit reference
number, and a record object carries the own properties Immutable gives it.
The module-level variable `pool` and the allocator are threaded through as
an explicit `Heap`.  A JavaScript `number` used as an index or a
distance is an `Int`; a JavaScript string holding text is the list of its
UTF-16 code units (`JSString`); a thrown error is `Except.error`.
-/

namespace DraftJS

/-! ## Values -/

/-- A JavaScript string as the sequence of its code units. -/
abbrev JSString := List Char

/-- The type `DraftInlineStyle = OrderedSet<string>`: the style tags in insertion
order, without repetition.  Two ordered sets are equal for `Immutable.is` when
they hold the same tags in the same order, which is equality of the lists. -/
abbrev DraftInlineStyle := List String

/-- The method `OrderedSet.add`: a tag already present leaves the set as it is, a new tag
goes to the end. -/
def OrderedSet.add (s : DraftInlineStyle) (x : String) : DraftInlineStyle :=
  if x ∈ s then s else s ++ [x]

/-- The method `OrderedSet.remove`. -/
def OrderedSet.remove (s : DraftInlineStyle) (x : String) : DraftInlineStyle :=
  s.filter (fun y => decide (y ≠ x))

/-- The constant `EMPTY_SET = OrderedSet()`. -/
def EMPTY_SET : DraftInlineStyle := []

/-- The internal map `_map` of a record object: the properties given to the constructor or
set since then.  A property that is not in the map reads as its default. -/
structure RecordMap where
  style : Option DraftInlineStyle
  entity : Option (Option String)
deriving DecidableEq, Repr

/-- An instance of the class `CharacterMetadata`, an Immutable record.  `ref` is the identity
of the JavaScript object: two instances are pointer-equal (`===`) exactly when they are equal
here.  `map` is the own property `_map` of the object.  `ownerID` tells whether the object has
the own property `__ownerID` as well: the records `set` makes have it (with the value
`undefined`), the records the constructor makes have not. -/
structure CharacterMetadata where
  ref : Nat
  map : RecordMap
  ownerID : Bool
deriving DecidableEq, Repr

/-- The method `getStyle`: the style of the map, or the default `EMPTY_SET`. -/
def CharacterMetadata.getStyle (r : CharacterMetadata) : DraftInlineStyle :=
  r.map.style.getD EMPTY_SET

/-- The method `getEntity`: the entity of the map, or the default `null`. -/
def CharacterMetadata.getEntity (r : CharacterMetadata) : Option String :=
  r.map.entity.getD none

/-- The value `Map` of the spread of `defaultRecord` and `config` that keys the pool; Immutable
maps used as keys are compared by value.  An object spread copies the own properties of
`config`.  Of an object literal these are its `style` and `entity`, which override the
defaults: the key is the map of that style and entity.  Of a record they are `_map` (and
`__ownerID`), and not `style` and `entity`, which a record has as accessors on its prototype:
the key is the map of the default style, the default entity, the record's `_map` (and
`__ownerID`).  A key of the first kind has two entries and is never equal to a key of the
second kind. -/
inductive ConfigMap where
  | plain (style : DraftInlineStyle) (entity : Option String)
  | record (map : RecordMap) (ownerID : Bool)
deriving DecidableEq, Repr

/-- The object `defaultRecord`, style `EMPTY_SET` and entity `null`, as the pool key
`Map(defaultRecord)`. -/
def defaultRecord : ConfigMap := .plain EMPTY_SET none

/-- The argument `config` of `CharacterMetadata.create`: an object literal whose
properties may be left out (type `CharacterMetadataConfig`), or a
`CharacterMetadata` record as `applyStyle`, `removeStyle` and `applyEntity` pass it. -/
inductive Config where
  | plain (style : Option DraftInlineStyle) (entity : Option (Option String))
  | record (r : CharacterMetadata)
deriving DecidableEq, Repr

/-- The expression `Map` of the spread of `defaultRecord` and `config`. -/
def Config.configMap : Config → ConfigMap
  | .plain s e => .plain (s.getD EMPTY_SET) (e.getD none)
  | .record r => .record r.map r.ownerID

/-! ## The pool -/

/-- The variable `pool : Map<Map<any, any>, CharacterMetadata>` as the list of its entries. -/
abbrev Pool := List (ConfigMap × CharacterMetadata)

/-- The method `Map.get` on the pool. -/
def Pool.get : Pool → ConfigMap → Option CharacterMetadata
  | [], _ => none
  | (k, v) :: rest, key => if k = key then some v else Pool.get rest key

/-- The method `Map.set` on the pool: the value of a key already present is replaced, a
new key gets a new entry. -/
def Pool.set : Pool → ConfigMap → CharacterMetadata → Pool
  | [], key, v => [(key, v)]
  | (k, w) :: rest, key, v =>
    if k = key then (k, v) :: rest else (k, w) :: Pool.set rest key v

/-- The process-wide mutable state of `CharacterMetadata.js`: the pool, and the reference the
next allocated record object gets. -/
structure Heap where
  pool : Pool
  next : Nat
deriving DecidableEq, Repr

/-- The static `CharacterMetadata.EMPTY = new CharacterMetadata()`, the first record
allocated: its map is empty. -/
def CharacterMetadata.EMPTY : CharacterMetadata := ⟨0, ⟨none, none⟩, false⟩

/-- The state after the module is loaded:
`pool = Map([[Map(defaultRecord), CharacterMetadata.EMPTY]])`. -/
def Heap.init : Heap := ⟨[(defaultRecord, CharacterMetadata.EMPTY)], 1⟩

/-- The expression `new CharacterMetadata(config)`.  For an object literal the record
constructor makes a new object whose map holds the properties of the literal.  For a record
of the same type the record constructor returns the record it was given, and that is what
`new` evaluates to: no object is allocated. -/
def CharacterMetadata.new (config : Config) (h : Heap) : CharacterMetadata × Heap :=
  match config with
  | .plain s e => (⟨h.next, ⟨s, e⟩, false⟩, { h with next := h.next + 1 })
  | .record r => (r, h)

/-- The static method `CharacterMetadata.create`. -/
def CharacterMetadata.create (config : Option Config) (h : Heap) : CharacterMetadata × Heap :=
  match config with
  | none => (CharacterMetadata.EMPTY, h)
  | some config =>
    let configMap := config.configMap
    match h.pool.get configMap with
    | some existing => (existing, h)
    | none =>
      let (newCharacter, h1) := CharacterMetadata.new config h
      (newCharacter, { h1 with pool := h1.pool.set configMap newCharacter })

/-- The record method `set` of Immutable with a new map: when the new map is the map of the
record (the property was in the map with that very value) the record itself is returned;
otherwise a new record object is made, with the own property `__ownerID`. -/
def CharacterMetadata.withMap (record : CharacterMetadata) (newMap : RecordMap) (h : Heap) :
    CharacterMetadata × Heap :=
  if newMap = record.map then (record, h)
  else (⟨h.next, newMap, true⟩, { h with next := h.next + 1 })

/-- The call `record.set('style', style)`. -/
def CharacterMetadata.setStyle (record : CharacterMetadata) (style : DraftInlineStyle)
    (h : Heap) : CharacterMetadata × Heap :=
  record.withMap ⟨some style, record.map.entity⟩ h

/-- The call `record.set('entity', entityKey)`. -/
def CharacterMetadata.setEntity (record : CharacterMetadata) (entityKey : Option String)
    (h : Heap) : CharacterMetadata × Heap :=
  record.withMap ⟨record.map.style, some entityKey⟩ h

/-- The static method `CharacterMetadata.applyStyle`. -/
def CharacterMetadata.applyStyle (record : CharacterMetadata) (style : String) (h : Heap) :
    CharacterMetadata × Heap :=
  let (withStyle, h1) := record.setStyle (OrderedSet.add record.getStyle style) h
  CharacterMetadata.create (some (.record withStyle)) h1

/-- The static method `CharacterMetadata.removeStyle`. -/
def CharacterMetadata.removeStyle (record : CharacterMetadata) (style : String) (h : Heap) :
    CharacterMetadata × Heap :=
  let (withoutStyle, h1) := record.setStyle (OrderedSet.remove record.getStyle style) h
  CharacterMetadata.create (some (.record withoutStyle)) h1

/-- The static method `CharacterMetadata.applyEntity`. -/
def CharacterMetadata.applyEntity (record : CharacterMetadata) (entityKey : Option String)
    (h : Heap) : CharacterMetadata × Heap :=
  let (withEntity, h1) :=
    if record.getEntity = entityKey then (record, h) else record.setEntity entityKey h
  CharacterMetadata.create (some (.record withEntity)) h1

/-- The expression `applyStyle(applyStyle(record, a), b)`. -/
def applyStyleTwice (record : CharacterMetadata) (a b : String) (h : Heap) :
    CharacterMetadata × Heap :=
  CharacterMetadata.applyStyle (CharacterMetadata.applyStyle record a h).1 b
    (CharacterMetadata.applyStyle record a h).2

/-- One step of the process-wide state: a call of `create`, or the allocation of a record
object by `set` or by the constructor. -/
inductive Heap.Step : Heap → Heap → Prop where
  | create (config : Option Config) (h : Heap) :
      Heap.Step h (CharacterMetadata.create config h).2
  | alloc (h : Heap) : Heap.Step h { h with next := h.next + 1 }

/-- The state `h2` is reached from `h1` by any number of steps. -/
inductive Heap.Steps : Heap → Heap → Prop where
  | refl (h : Heap) : Heap.Steps h h
  | tail {h1 h2 h3 : Heap} : Heap.Steps h1 h2 → Heap.Step h2 h3 → Heap.Steps h1 h3

/-- The reachable states: those reached from the state after module load. -/
def Heap.Reachable (h : Heap) : Prop := Heap.Steps Heap.init h

/-- The record `v` fits the pool key: under a key of style and entity it reads as that style
and entity, under a key made of a record's own properties it has these properties. -/
def ConfigMap.Holds (key : ConfigMap) (v : CharacterMetadata) : Prop :=
  match key with
  | .plain s e => v.getStyle = s ∧ v.getEntity = e
  | .record m o => v.map = m ∧ v.ownerID = o

/-- Every pool entry holds a record that fits its key. -/
def Pool.Consistent (p : Pool) : Prop :=
  ∀ key v, p.get key = some v → key.Holds v

/-- The record `c` is the instance the pool holds under the key of `c` as a config, the key
made of its own properties. -/
def Heap.Pooled (h : Heap) (c : CharacterMetadata) : Prop :=
  h.pool.get (.record c.map c.ownerID) = some c

instance (h : Heap) (c : CharacterMetadata) : Decidable (h.Pooled c) :=
  inferInstanceAs (Decidable (h.pool.get (.record c.map c.ownerID) = some c))

/-- The record `r` was returned by an earlier call of `applyEntity`, `applyStyle` or
`removeStyle` made in a reachable state, and `h` is the state that call left or a later
one. -/
inductive Heap.Returned (h : Heap) (r : CharacterMetadata) : Prop where
  | applyEntity (r0 : CharacterMetadata) (k0 : Option String) (h0 : Heap) :
      h0.Reachable → r = (CharacterMetadata.applyEntity r0 k0 h0).1 →
      Heap.Steps (CharacterMetadata.applyEntity r0 k0 h0).2 h → Heap.Returned h r
  | applyStyle (r0 : CharacterMetadata) (s0 : String) (h0 : Heap) :
      h0.Reachable → r = (CharacterMetadata.applyStyle r0 s0 h0).1 →
      Heap.Steps (CharacterMetadata.applyStyle r0 s0 h0).2 h → Heap.Returned h r
  | removeStyle (r0 : CharacterMetadata) (s0 : String) (h0 : Heap) :
      h0.Reachable → r = (CharacterMetadata.removeStyle r0 s0 h0).1 →
      Heap.Steps (CharacterMetadata.removeStyle r0 s0 h0).2 h → Heap.Returned h r

/-! ## Immutable lists, blocks and selections -/

/-- A fatal error: a failed `invariant(...)` with its message, or a failed `nullthrows`. -/
inductive Fatal where
  | invariant (message : String)
  | nullthrows
deriving DecidableEq, Repr

deriving instance DecidableEq for Except

/-- Immutable's index wrapping: a negative index counts from the end of the list. -/
def wrapIndex (size : Nat) (index : Int) : Int :=
  if index < 0 then (size : Int) + index else index

/-- The method `List.get(index)` of Immutable: `none` is `undefined`. -/
def ImmList.get {α : Type} (l : List α) (index : Int) : Option α :=
  let i := wrapIndex l.length index
  if 0 ≤ i then l[i.toNat]? else none

/-- The method `List.set(index, value)` of Immutable at an index inside the list.  (Outside
the list Immutable grows it; the code here only sets an index it has just read.) -/
def ImmList.set {α : Type} (l : List α) (index : Int) (value : α) : List α :=
  let i := wrapIndex l.length index
  if 0 ≤ i then l.set i.toNat value else l

/-- Modelled from the spec: the record `ContentBlock` is not among the sources; its fields are
those the spec lists (key, type, text, characterList, depth). -/
structure ContentBlock where
  key : String
  type : String
  text : JSString
  characterList : List CharacterMetadata
  depth : Nat
deriving DecidableEq, Repr

/-- The method `ContentBlock.getLength`: the length of the text. -/
def ContentBlock.getLength (b : ContentBlock) : Nat := b.text.length

/-- Modelled from the spec: the record `SelectionState` is not among the sources; its fields
are those the spec lists. -/
structure SelectionState where
  anchorKey : String
  anchorOffset : Int
  focusKey : String
  focusOffset : Int
  isBackward : Bool
  hasFocus : Bool
deriving DecidableEq, Repr

/-- Modelled from the spec: `new SelectionState()`, the record of the default values. -/
def SelectionState.default : SelectionState := ⟨"", 0, "", 0, false, false⟩

/-- Modelled from the spec: `SelectionState.createEmpty(key)`, the collapsed selection at the
start of the block `key`. -/
def SelectionState.createEmpty (key : String) : SelectionState := ⟨key, 0, key, 0, false, false⟩

/-- Modelled from the spec: a selection is collapsed when anchor equals focus. -/
def SelectionState.isCollapsed (s : SelectionState) : Bool :=
  s.anchorKey == s.focusKey && s.anchorOffset == s.focusOffset

/-- Modelled from the spec: `getStartKey` takes the start of the selection whatever its
direction: the focus of a backward selection, the anchor of a forward one. -/
def SelectionState.getStartKey (s : SelectionState) : String :=
  if s.isBackward then s.focusKey else s.anchorKey

/-- Modelled from the spec: `getStartOffset`, the offset that goes with `getStartKey`. -/
def SelectionState.getStartOffset (s : SelectionState) : Int :=
  if s.isBackward then s.focusOffset else s.anchorOffset

/-- The call `selection.merge` with the three properties focusKey, focusOffset and isBackward
that `moveSelectionBackward` passes: the other fields are kept. -/
def SelectionState.merge (s : SelectionState) (focusKey : String) (focusOffset : Int)
    (isBackward : Bool) : SelectionState :=
  { s with focusKey := focusKey, focusOffset := focusOffset, isBackward := isBackward }

/-! ## applyEntityToContentBlock -/

/-- The loop `while (start < end)` of `applyEntityToContentBlock`, on the local variables
`characterList` and `start` and the pool. -/
def applyEntityToContentBlock.loop (entityKey : Option String) (end_ : Int) (start : Int)
    (characterList : List CharacterMetadata) (h : Heap) :
    Except Fatal (List CharacterMetadata × Heap) :=
  if start < end_ then
    match ImmList.get characterList start with
    | none => .error .nullthrows
    | some c =>
      let r := CharacterMetadata.applyEntity c entityKey h
      applyEntityToContentBlock.loop entityKey end_ (start + 1)
        (ImmList.set characterList start r.1) r.2
  else .ok (characterList, h)
termination_by (end_ - start).toNat
decreasing_by omega

/-- The function `applyEntityToContentBlock`. -/
def applyEntityToContentBlock (contentBlock : ContentBlock) (start end_ : Int)
    (entityKey : Option String) (h : Heap) : Except Fatal (ContentBlock × Heap) :=
  match applyEntityToContentBlock.loop entityKey end_ start contentBlock.characterList h with
  | .error e => .error e
  | .ok (characterList, h1) => .ok ({ contentBlock with characterList := characterList }, h1)

/-! ## ContentState -/

/-- The type `BlockMap = OrderedMap<string, ContentBlock>` as the list of its entries in
document order.  An ordered map holds each key once. -/
abbrev BlockMap := List (String × ContentBlock)

/-- The method `OrderedMap.get`. -/
def BlockMap.get : BlockMap → String → Option ContentBlock
  | [], _ => none
  | (k, b) :: rest, key => if k = key then some b else BlockMap.get rest key

/-- The method `OrderedMap.set`: a key already present keeps its place and gets the new value,
a new key goes to the end. -/
def BlockMap.set : BlockMap → String → ContentBlock → BlockMap
  | [], key, b => [(key, b)]
  | (k, w) :: rest, key, b =>
    if k = key then (k, b) :: rest else (k, w) :: BlockMap.set rest key b

/-- The method `keySeq`: the keys in document order. -/
def BlockMap.keySeq (m : BlockMap) : List String := m.map Prod.fst

/-- The method `skipUntil(predicate)` of an Immutable sequence. -/
def skipUntil {α : Type} (p : α → Bool) (l : List α) : List α := l.dropWhile (fun v => !p v)

/-- The method `join(separator)` of an Immutable collection of strings: its loop appends each
value to the result, with the separator before every value but the first.  The state of the
fold is the string built so far and the flag `isFirst`. -/
def join (texts : List JSString) (separator : JSString) : JSString :=
  (texts.foldl
    (fun (st : JSString × Bool) v =>
      (if st.2 then st.1 ++ v else st.1 ++ separator ++ v, false))
    ([], true)).1

/-- Modelled from the spec: `BlockMapBuilder.createFromArray` is not among the sources; it builds
the ordered block map of a sequence of blocks, each under its own key. -/
def BlockMapBuilder.createFromArray (blocks : List ContentBlock) : BlockMap :=
  blocks.foldl (fun m b => BlockMap.set m b.key b) []

/-- The entity registry a content state refers to: the global `DraftEntity`, or one passed in. -/
inductive EntityMap where
  | DraftEntity
  | other (id : Nat)
deriving DecidableEq, Repr

/-- The record `ContentState`; `none` is the `null` of `defaultRecord`. -/
structure ContentState where
  entityMap : Option EntityMap
  blockMap : Option BlockMap
  selectionBefore : Option SelectionState
  selectionAfter : Option SelectionState
deriving DecidableEq, Repr

/-- The method `getBlockMap`, with its `invariant`. -/
def ContentState.getBlockMap (cs : ContentState) : Except Fatal BlockMap :=
  match cs.blockMap with
  | some blockMap => .ok blockMap
  | none => .error (.invariant "ContentState missing blockMap")

/-- The method `getBlockForKey`. -/
def ContentState.getBlockForKey (cs : ContentState) (key : String) :
    Except Fatal (Option ContentBlock) :=
  match cs.getBlockMap with
  | .error e => .error e
  | .ok m => .ok (m.get key)

/-- The method `getKeyBefore`; the result `none` is `undefined`. -/
def ContentState.getKeyBefore (cs : ContentState) (key : String) :
    Except Fatal (Option String) :=
  match cs.getBlockMap with
  | .error e => .error e
  | .ok m => .ok (((skipUntil (fun v => v == key) (BlockMap.keySeq m.reverse)).drop 1).head?)

/-- The method `getKeyAfter`; the result `none` is `undefined`. -/
def ContentState.getKeyAfter (cs : ContentState) (key : String) :
    Except Fatal (Option String) :=
  match cs.getBlockMap with
  | .error e => .error e
  | .ok m => .ok (((skipUntil (fun v => v == key) (BlockMap.keySeq m)).drop 1).head?)

/-- The expression `delimiter || '\n'`: a delimiter that is missing or is the empty string
gives the newline. -/
def delimiterOrNewline : Option JSString → JSString
  | some (c :: cs) => c :: cs
  | _ => ['\n']

/-- The method `getPlainText`. -/
def ContentState.getPlainText (cs : ContentState) (delimiter : Option JSString) :
    Except Fatal JSString :=
  match cs.getBlockMap with
  | .error e => .error e
  | .ok m => .ok (join (m.map (fun e => e.2.text)) (delimiterOrNewline delimiter))

/-- The first argument of `createFromBlockArray`: an array of blocks, or an object with the
property `contentBlocks`. -/
inductive BlocksArg where
  | array (blocks : List ContentBlock)
  | wrapper (contentBlocks : List ContentBlock)
deriving DecidableEq, Repr

/-- The static method `ContentState.createFromBlockArray`. -/
def ContentState.createFromBlockArray (blocks : BlocksArg) (entityMap : Option EntityMap) :
    ContentState :=
  let theBlocks := match blocks with
    | .array bs => bs
    | .wrapper bs => bs
  let blockMap := BlockMapBuilder.createFromArray theBlocks
  let selectionState := match blockMap with
    | [] => SelectionState.default
    | (_, first) :: _ => SelectionState.createEmpty first.key
  { blockMap := some blockMap
    entityMap := some (entityMap.getD EntityMap.DraftEntity)
    selectionBefore := some selectionState
    selectionAfter := some selectionState }

/-- The scan of `String.prototype.split` with a non-empty string separator: `cur` is the
segment being read, and a match of the separator closes it. -/
def jsSplit.go (sep : JSString) (cur : JSString) (rest : JSString) : List JSString :=
  match rest with
  | [] => [cur]
  | c :: cs =>
    if sep.isPrefixOf (c :: cs) then cur :: jsSplit.go sep [] (cs.drop (sep.length - 1))
    else jsSplit.go sep (cur ++ [c]) cs
termination_by rest.length
decreasing_by
  all_goals simp_wf
  all_goals omega

/-- The method `String.prototype.split` with a string separator: the empty separator splits
into the code units. -/
def jsSplit (text : JSString) (sep : JSString) : List JSString :=
  match sep with
  | [] => text.map (fun c => [c])
  | _ :: _ => jsSplit.go sep [] text

/-- The method `String.prototype.split` with the default regular expression of
`createFromText`, which matches a carriage return with an optional line feed after it, or a
line feed. -/
def jsSplitLineBreaks.go (cur : JSString) : JSString → List JSString
  | [] => [cur]
  | c :: cs =>
    if c = '\r' then
      match cs with
      | d :: ds => if d = '\n' then cur :: jsSplitLineBreaks.go [] ds
                   else cur :: jsSplitLineBreaks.go [] (d :: ds)
      | [] => [cur, []]
    else if c = '\n' then cur :: jsSplitLineBreaks.go [] cs
    else jsSplitLineBreaks.go (cur ++ [c]) cs
termination_by rest => rest.length

/-- The second argument of `createFromText`: a string, the default regular expression, or
another regular expression, which is given by what `split` does with it. -/
inductive Delimiter where
  | string (d : JSString)
  | lineBreaks
  | regExp (split : JSString → List JSString)

/-- The call `text.split(delimiter)`. -/
def splitBy (text : JSString) : Delimiter → List JSString
  | .string d => jsSplit text d
  | .lineBreaks => jsSplitLineBreaks.go [] text
  | .regExp split => split text

/-- Modelled from the spec: `sanitizeDraftText` is not among the sources; it strips the
characters the model forbids, given here by the predicate `strips`. -/
def sanitizeDraftText (strips : Char → Bool) (input : JSString) : JSString :=
  input.filter (fun c => !strips c)

/-- The callback of `strings.map` in `createFromText`, on the segments from the `n`-th on;
`generateRandomKey n` is the key the `n`-th call of the key generator returns. -/
def createFromText.blocks (generateRandomKey : Nat → String) (strips : Char → Bool) :
    Nat → List JSString → List ContentBlock
  | _, [] => []
  | n, block :: rest =>
    let block := sanitizeDraftText strips block
    { key := generateRandomKey n
      text := block
      type := "unstyled"
      characterList := List.replicate block.length CharacterMetadata.EMPTY
      depth := 0 } :: createFromText.blocks generateRandomKey strips (n + 1) rest

/-- The static method `ContentState.createFromText`; a missing delimiter is the default
regular expression. -/
def ContentState.createFromText (generateRandomKey : Nat → String) (strips : Char → Bool)
    (text : JSString) (delimiter : Option Delimiter) : ContentState :=
  let strings := splitBy text (delimiter.getD Delimiter.lineBreaks)
  let blocks := createFromText.blocks generateRandomKey strips 0 strings
  ContentState.createFromBlockArray (.array blocks) none

/-- The method `getFirstBlock`, with its `invariant`; `first()` of an empty map is
`undefined`. -/
def ContentState.getFirstBlock (cs : ContentState) : Except Fatal ContentBlock :=
  match cs.getBlockMap with
  | .error e => .error e
  | .ok m =>
    match m.head? with
    | some (_, block) => .ok block
    | none => .error (.invariant "ContentState blockMap is empty")

/-- The method `getLastBlock`, with its `invariant`; `last()` of an empty map is
`undefined`. -/
def ContentState.getLastBlock (cs : ContentState) : Except Fatal ContentBlock :=
  match cs.getBlockMap with
  | .error e => .error e
  | .ok m =>
    match m.getLast? with
    | some (_, block) => .ok block
    | none => .error (.invariant "ContentState blockMap is empty")

/-- The method `hasText`: the right operand of the disjunction is evaluated only when the
left one is false. -/
def ContentState.hasText (cs : ContentState) : Except Fatal Bool :=
  match cs.getBlockMap with
  | .error e => .error e
  | .ok m =>
    if m.length > 1 then .ok true
    else
      match cs.getFirstBlock with
      | .error e => .error e
      | .ok block => .ok (decide (block.getLength > 0))

/-! ## moveSelectionBackward -/

/-- Modelled from the spec: the record `EditorState` is not among the sources; the function
reads its selection and its current content. -/
structure EditorState where
  currentContent : ContentState
  selection : SelectionState
deriving DecidableEq, Repr

/-- The function `moveSelectionBackward`. -/
def moveSelectionBackward (editorState : EditorState) (maxDistance : Int) :
    Except Fatal SelectionState :=
  let selection := editorState.selection
  let content := editorState.currentContent
  let key := selection.getStartKey
  let offset := selection.getStartOffset
  if maxDistance > offset then
    match content.getKeyBefore key with
    | .error e => .error e
    | .ok none => .ok (selection.merge key 0 true)
    | .ok (some keyBefore) =>
      match content.getBlockForKey keyBefore with
      | .error e => .error e
      | .ok none => .error .nullthrows
      | .ok (some blockBefore) =>
        .ok (selection.merge keyBefore (blockBefore.text.length : Int) true)
  else .ok (selection.merge key (offset - maxDistance) true)

/-- The invariant the spec states for a content state after creation: the block map is not
empty, and the selections before and after name keys of the block map. -/
def ContentState.NonEmptyInvariant (cs : ContentState) : Prop :=
  ∃ m sb sa, cs.blockMap = some m ∧ m ≠ [] ∧
    cs.selectionBefore = some sb ∧ cs.selectionAfter = some sa ∧
    sb.anchorKey ∈ BlockMap.keySeq m ∧ sb.focusKey ∈ BlockMap.keySeq m ∧
    sa.anchorKey ∈ BlockMap.keySeq m ∧ sa.focusKey ∈ BlockMap.keySeq m

/-! ## Sample values -/

/-- A block of the given key and text, with `EMPTY` metadata for each character. -/
def sampleBlock (key : String) (text : JSString) : ContentBlock :=
  ⟨key, "unstyled", text, List.replicate text.length CharacterMetadata.EMPTY, 0⟩

/-- A content state of two blocks: the text ab under the key k1, then cde under the key k2. -/
def sampleContent : ContentState :=
  ContentState.createFromBlockArray
    (.array [sampleBlock "k1" ['a', 'b'], sampleBlock "k2" ['c', 'd', 'e']]) none

/-- The block map of `sampleContent`. -/
def sampleBlockMap : BlockMap :=
  [("k1", sampleBlock "k1" ['a', 'b']), ("k2", sampleBlock "k2" ['c', 'd', 'e'])]

/-- A key generator that never repeats a key: the `n`-th key is the letter k written
`n + 1` times. -/
def sampleKey (n : Nat) : String := String.mk (List.replicate (n + 1) 'k')

/-- An editor state on `sampleContent` with the given selection. -/
def sampleEditor (selection : SelectionState) : EditorState := ⟨sampleContent, selection⟩

/-! ## The pool: lookups after updates -/

theorem Pool.get_set_self (p : Pool) (k : ConfigMap) (v : CharacterMetadata) :
    (p.set k v).get k = some v := by
  induction p with
  | nil => simp [Pool.set, Pool.get]
  | cons e rest ih =>
    obtain ⟨k0, w⟩ := e
    by_cases hk : k0 = k
    · simp [Pool.set, Pool.get, hk]
    · simp [Pool.set, Pool.get, hk, ih]

theorem Pool.get_set_of_ne (p : Pool) (k k1 : ConfigMap) (v : CharacterMetadata)
    (hne : k ≠ k1) : (p.set k v).get k1 = p.get k1 := by
  induction p with
  | nil => simp [Pool.set, Pool.get, hne]
  | cons e rest ih =>
    obtain ⟨k0, w⟩ := e
    by_cases hk : k0 = k
    · subst hk
      simp [Pool.set, Pool.get, hne]
    · by_cases hk1 : k0 = k1
      · subst hk1
        simp [Pool.set, Pool.get, hk]
      · simp [Pool.set, Pool.get, hk, hk1, ih]

theorem CharacterMetadata.new_pool (c : Config) (h : Heap) :
    (CharacterMetadata.new c h).2.pool = h.pool := by
  cases c <;> rfl

/-- A call of `create` with a config, by cases on the pool lookup. -/
theorem create_some_of_get (c : Config) (h : Heap) (v : CharacterMetadata)
    (hget : h.pool.get c.configMap = some v) :
    CharacterMetadata.create (some c) h = (v, h) := by
  simp [CharacterMetadata.create, hget]

theorem create_some_of_miss (c : Config) (h : Heap) (hget : h.pool.get c.configMap = none) :
    CharacterMetadata.create (some c) h =
      ((CharacterMetadata.new c h).1,
        ⟨h.pool.set c.configMap (CharacterMetadata.new c h).1,
          (CharacterMetadata.new c h).2.next⟩) := by
  simp [CharacterMetadata.create, hget, CharacterMetadata.new_pool]

/-- A record config that is not pooled under its key is pooled and returned itself. -/
theorem create_record_of_miss (r : CharacterMetadata) (h : Heap)
    (hget : h.pool.get (.record r.map r.ownerID) = none) :
    CharacterMetadata.create (some (.record r)) h =
      (r, ⟨h.pool.set (.record r.map r.ownerID) r, h.next⟩) := by
  rw [create_some_of_miss (.record r) h hget]
  rfl

/-- After `create(config)` the pool maps the key of `config` to the returned instance. -/
theorem create_get (c : Config) (h : Heap) :
    (CharacterMetadata.create (some c) h).2.pool.get c.configMap =
      some (CharacterMetadata.create (some c) h).1 := by
  cases hget : h.pool.get c.configMap with
  | some v => rw [create_some_of_get c h v hget]; exact hget
  | none => rw [create_some_of_miss c h hget]; exact Pool.get_set_self _ _ _

/-- The pool only grows: `create` keeps every entry. -/
theorem create_mono (o : Option Config) (h : Heap) (k : ConfigMap) (v : CharacterMetadata)
    (hk : h.pool.get k = some v) : (CharacterMetadata.create o h).2.pool.get k = some v := by
  cases o with
  | none => simpa [CharacterMetadata.create] using hk
  | some c =>
    cases hget : h.pool.get c.configMap with
    | some w => rw [create_some_of_get c h w hget]; exact hk
    | none =>
      rw [create_some_of_miss c h hget]
      have hne : c.configMap ≠ k := by
        intro heq
        rw [heq, hk] at hget
        exact Option.noConfusion hget
      simpa [Pool.get_set_of_ne _ _ _ _ hne] using hk

theorem Heap.Step.pool_get_step {h1 h2 : Heap} (hs : Heap.Step h1 h2) (k : ConfigMap)
    (v : CharacterMetadata) (hk : h1.pool.get k = some v) : h2.pool.get k = some v := by
  cases hs with
  | create o => exact create_mono o h1 k v hk
  | alloc => exact hk

theorem Heap.Steps.pool_get_steps {h1 h2 : Heap} (hs : Heap.Steps h1 h2) (k : ConfigMap)
    (v : CharacterMetadata) (hk : h1.pool.get k = some v) : h2.pool.get k = some v := by
  induction hs with
  | refl => exact hk
  | tail _ hstep ih => exact hstep.pool_get_step k v ih

theorem Heap.Steps.trans {h1 h2 h3 : Heap} (h12 : Heap.Steps h1 h2) (h23 : Heap.Steps h2 h3) :
    Heap.Steps h1 h3 := by
  induction h23 with
  | refl => exact h12
  | tail _ hstep ih => exact Heap.Steps.tail ih hstep

/-- In every reachable state the default pair is pooled as `EMPTY`. -/
theorem Heap.Reachable.get_default {h : Heap} (hr : h.Reachable) :
    h.pool.get defaultRecord = some CharacterMetadata.EMPTY := by
  apply Heap.Steps.pool_get_steps hr
  simp [Heap.init, Pool.get]

/-! ## Consistency of the pool -/

theorem Heap.init_consistent : Heap.init.pool.Consistent := by
  intro key v hget
  by_cases hk : defaultRecord = key
  · subst hk
    simp [Heap.init, Pool.get] at hget
    subst hget
    exact ⟨rfl, rfl⟩
  · simp [Heap.init, Pool.get, hk] at hget

/-- The record `new CharacterMetadata(config)` fits the key of `config`. -/
theorem CharacterMetadata.new_holds (c : Config) (h : Heap) :
    c.configMap.Holds (CharacterMetadata.new c h).1 := by
  cases c with
  | plain s e => exact ⟨rfl, rfl⟩
  | record r => exact ⟨rfl, rfl⟩

theorem create_consistent (o : Option Config) (h : Heap) (hc : h.pool.Consistent) :
    (CharacterMetadata.create o h).2.pool.Consistent := by
  cases o with
  | none => simpa [CharacterMetadata.create] using hc
  | some c =>
    cases hget : h.pool.get c.configMap with
    | some w => rw [create_some_of_get c h w hget]; exact hc
    | none =>
      rw [create_some_of_miss c h hget]
      intro key v hkv
      by_cases hk : c.configMap = key
      · subst hk
        simp only [Pool.get_set_self, Option.some.injEq] at hkv
        subst hkv
        exact CharacterMetadata.new_holds c h
      · simp only [Pool.get_set_of_ne _ _ _ _ hk] at hkv
        exact hc key v hkv

theorem Heap.Steps.consistent_of_steps {h1 h2 : Heap} (hs : Heap.Steps h1 h2)
    (hc : h1.pool.Consistent) : h2.pool.Consistent := by
  induction hs with
  | refl => exact hc
  | tail _ hstep ih =>
    cases hstep with
    | create o => exact create_consistent o _ ih
    | alloc => exact ih

theorem Heap.Reachable.consistent {h : Heap} (hr : h.Reachable) : h.pool.Consistent :=
  Heap.Steps.consistent_of_steps hr Heap.init_consistent

/-- What `create` returns for a record config, in a consistent pool: an instance with the
own properties of the record, hence its style and entity, that is pooled under the record's
key afterwards. -/
theorem create_record_spec (w : CharacterMetadata) (h : Heap) (hc : h.pool.Consistent) :
    (CharacterMetadata.create (some (.record w)) h).1.map = w.map ∧
    (CharacterMetadata.create (some (.record w)) h).1.ownerID = w.ownerID ∧
    (CharacterMetadata.create (some (.record w)) h).2.Pooled
      (CharacterMetadata.create (some (.record w)) h).1 := by
  have hget := create_get (.record w) h
  have hc2 := create_consistent (some (.record w)) h hc
  have hf := hc2 _ _ hget
  simp only [Config.configMap] at hf hget
  refine ⟨hf.1, hf.2, ?_⟩
  unfold Heap.Pooled
  rw [hf.1, hf.2]
  exact hget

theorem getStyle_of_map_eq {c w : CharacterMetadata} (h : c.map = w.map) :
    c.getStyle = w.getStyle := by
  simp [CharacterMetadata.getStyle, h]

theorem getEntity_of_map_eq {c w : CharacterMetadata} (h : c.map = w.map) :
    c.getEntity = w.getEntity := by
  simp [CharacterMetadata.getEntity, h]

/-- What `record.set` returns: a record with the new map; the pool is as it was, and the
state is reached by at most one allocation. -/
theorem withMap_spec (r : CharacterMetadata) (m : RecordMap) (h : Heap) :
    (r.withMap m h).1.map = m ∧
    (r.withMap m h).1.ownerID = (if m = r.map then r.ownerID else true) ∧
    (r.withMap m h).2.pool = h.pool ∧ Heap.Steps h (r.withMap m h).2 := by
  by_cases hm : m = r.map
  · have e : r.withMap m h = (r, h) := by simp [CharacterMetadata.withMap, hm]
    rw [e]
    exact ⟨hm.symm, by simp [hm], rfl, Heap.Steps.refl h⟩
  · have e : r.withMap m h = (⟨h.next, m, true⟩, { h with next := h.next + 1 }) := by
      simp [CharacterMetadata.withMap, hm]
    rw [e]
    exact ⟨rfl, by simp [hm], rfl, Heap.Steps.tail (Heap.Steps.refl h) (Heap.Step.alloc h)⟩

/-- The static method `applyEntity`, by cases on the comparison of the keys. -/
theorem applyEntity_of_eq (c : CharacterMetadata) (k : Option String) (h : Heap)
    (hk : c.getEntity = k) :
    CharacterMetadata.applyEntity c k h = CharacterMetadata.create (some (.record c)) h := by
  simp [CharacterMetadata.applyEntity, hk]

theorem applyEntity_of_ne (c : CharacterMetadata) (k : Option String) (h : Heap)
    (hk : c.getEntity ≠ k) :
    CharacterMetadata.applyEntity c k h =
      CharacterMetadata.create (some (.record (c.setEntity k h).1)) (c.setEntity k h).2 := by
  simp [CharacterMetadata.applyEntity, hk]

/-- What `applyEntity` returns in a consistent pool: an instance with the given entity and the
style of the record, pooled under its own key afterwards; the pool stays consistent and keeps
its entries. -/
theorem applyEntity_spec (c : CharacterMetadata) (k : Option String) (h : Heap)
    (hc : h.pool.Consistent) :
    (CharacterMetadata.applyEntity c k h).1.getEntity = k ∧
    (CharacterMetadata.applyEntity c k h).1.getStyle = c.getStyle ∧
    (CharacterMetadata.applyEntity c k h).2.Pooled (CharacterMetadata.applyEntity c k h).1 ∧
    (CharacterMetadata.applyEntity c k h).2.pool.Consistent ∧
    (∀ key v, h.pool.get key = some v →
      (CharacterMetadata.applyEntity c k h).2.pool.get key = some v) := by
  by_cases hk : c.getEntity = k
  · rw [applyEntity_of_eq c k h hk]
    obtain ⟨h1, _, h3⟩ := create_record_spec c h hc
    exact ⟨(getEntity_of_map_eq h1).trans hk, getStyle_of_map_eq h1, h3,
      create_consistent _ h hc, fun key v hkv => create_mono _ h key v hkv⟩
  · rw [applyEntity_of_ne c k h hk]
    obtain ⟨w1, _, w3, _⟩ := withMap_spec c ⟨c.map.style, some k⟩ h
    have hc1 : (c.setEntity k h).2.pool.Consistent := by
      unfold CharacterMetadata.setEntity
      rw [w3]
      exact hc
    obtain ⟨h1, _, h3⟩ := create_record_spec (c.setEntity k h).1 (c.setEntity k h).2 hc1
    have hmap : (CharacterMetadata.create (some (.record (c.setEntity k h).1))
        (c.setEntity k h).2).1.map = ⟨c.map.style, some k⟩ := h1.trans w1
    refine ⟨?_, ?_, h3, create_consistent _ _ hc1, ?_⟩
    · simp [CharacterMetadata.getEntity, hmap]
    · simp [CharacterMetadata.getStyle, hmap]
    · intro key v hkv
      apply create_mono
      unfold CharacterMetadata.setEntity
      rw [w3]
      exact hkv

/-- A pooled instance stays the pooled instance of its key in every later state. -/
theorem Heap.Pooled.of_steps {h1 h2 : Heap} {c : CharacterMetadata} (hp : h1.Pooled c)
    (hs : Heap.Steps h1 h2) : h2.Pooled c :=
  hs.pool_get_steps _ _ hp

/-- For a record pooled under its own key, `applyEntity` with the record's own entity key is
the identity. -/
theorem applyEntity_same_key (r : CharacterMetadata) (k : Option String) (h : Heap)
    (hp : h.Pooled r) (hk : k = r.getEntity) :
    CharacterMetadata.applyEntity r k h = (r, h) := by
  rw [applyEntity_of_eq r k h hk.symm]
  exact create_some_of_get (.record r) h r hp

/-! ## Interning: plain configs and record configs -/

/-- C1 does not hold of the code.  From the state after module load,
`a = create` of the object literal with the style BOLD is a new instance pooled under the key
of style BOLD and entity `null`.  Then `create` of the record `EMPTY.set('style', BOLD)`, which
is the call `applyStyle(EMPTY, 'BOLD')` makes, looks up the key made of the record's own
properties, misses, and pools and returns the record itself: an instance with the same style
and entity as `a` that is not `a`, and the pool has three entries. -/
theorem create_record_config_other_instance :
    (CharacterMetadata.create (some (.plain (some ["BOLD"]) none)) Heap.init).1.getStyle =
      ["BOLD"] ∧
    (CharacterMetadata.create (some (.plain (some ["BOLD"]) none)) Heap.init).1.getEntity =
      none ∧
    (CharacterMetadata.applyStyle CharacterMetadata.EMPTY "BOLD"
      (CharacterMetadata.create (some (.plain (some ["BOLD"]) none)) Heap.init).2).1.getStyle =
      ["BOLD"] ∧
    (CharacterMetadata.applyStyle CharacterMetadata.EMPTY "BOLD"
      (CharacterMetadata.create (some (.plain (some ["BOLD"]) none)) Heap.init).2).1.getEntity =
      none ∧
    (CharacterMetadata.applyStyle CharacterMetadata.EMPTY "BOLD"
      (CharacterMetadata.create (some (.plain (some ["BOLD"]) none)) Heap.init).2).1 ≠
      (CharacterMetadata.create (some (.plain (some ["BOLD"]) none)) Heap.init).1 ∧
    CharacterMetadata.applyStyle CharacterMetadata.EMPTY "BOLD"
        (CharacterMetadata.create (some (.plain (some ["BOLD"]) none)) Heap.init).2 =
      CharacterMetadata.create (some (.record ⟨2, ⟨some ["BOLD"], none⟩, true⟩))
        ⟨(CharacterMetadata.create (some (.plain (some ["BOLD"]) none)) Heap.init).2.pool, 3⟩ ∧
    (CharacterMetadata.applyStyle CharacterMetadata.EMPTY "BOLD"
      (CharacterMetadata.create (some (.plain (some ["BOLD"]) none))
        Heap.init).2).2.pool.length = 3 := by
  refine ⟨by decide, by decide, by decide, by decide, by decide, by decide, by decide⟩

/-! ## The loop of applyEntityToContentBlock -/

theorem ImmList.get_of_nonneg {α : Type} (l : List α) (s : Int) (hs : 0 ≤ s) :
    ImmList.get l s = l[s.toNat]? := by
  simp [ImmList.get, wrapIndex, not_lt.mpr hs, hs]

theorem ImmList.set_of_nonneg {α : Type} (l : List α) (s : Int) (v : α) (hs : 0 ≤ s) :
    ImmList.set l s v = l.set s.toNat v := by
  simp [ImmList.set, wrapIndex, not_lt.mpr hs, hs]

theorem applyEntityToContentBlock.loop_done (k : Option String) (e s : Int)
    (cl : List CharacterMetadata) (h : Heap) (hse : ¬ s < e) :
    applyEntityToContentBlock.loop k e s cl h = .ok (cl, h) := by
  rw [applyEntityToContentBlock.loop, if_neg hse]

theorem applyEntityToContentBlock.loop_step (k : Option String) (e s : Int)
    (cl : List CharacterMetadata) (h : Heap) (c : CharacterMetadata) (hse : s < e)
    (hs : 0 ≤ s) (hc : cl[s.toNat]? = some c) :
    applyEntityToContentBlock.loop k e s cl h =
      applyEntityToContentBlock.loop k e (s + 1)
        (cl.set s.toNat (CharacterMetadata.applyEntity c k h).1)
        (CharacterMetadata.applyEntity c k h).2 := by
  rw [applyEntityToContentBlock.loop, if_pos hse, ImmList.get_of_nonneg cl s hs, hc]
  simp only [ImmList.set_of_nonneg _ s _ hs]

/-- The loop from `s` to `e` inside the list, in a consistent pool: it ends without error, the
characters of the range get the entity and keep their style, the others are the same
instances. -/
theorem applyEntityToContentBlock.loop_spec (k : Option String) (e : Int) (n : Nat) :
    ∀ (s : Int) (cl : List CharacterMetadata) (h : Heap), (e - s).toNat = n → 0 ≤ s →
      e ≤ (cl.length : Int) → h.pool.Consistent →
      ∃ cl1 h1, applyEntityToContentBlock.loop k e s cl h = .ok (cl1, h1) ∧
        cl1.length = cl.length ∧ h1.pool.Consistent ∧
        (∀ key v, h.pool.get key = some v → h1.pool.get key = some v) ∧
        (∀ i : Nat, s ≤ (i : Int) → (i : Int) < e →
          ∃ c c1, cl[i]? = some c ∧ cl1[i]? = some c1 ∧ c1.getEntity = k ∧ c1.getStyle = c.getStyle ∧
            h1.Pooled c1) ∧
        (∀ i : Nat, ¬ (s ≤ (i : Int) ∧ (i : Int) < e) → cl1[i]? = cl[i]?) := by
  induction n with
  | zero =>
    intro s cl h hn hs he hc
    have hse : ¬ s < e := by omega
    refine ⟨cl, h, applyEntityToContentBlock.loop_done k e s cl h hse, rfl, hc,
      fun _ _ hkv => hkv, ?_, fun _ _ => rfl⟩
    intro i h1 h2
    omega
  | succ n ih =>
    intro s cl h hn hs he hc
    have hse : s < e := by omega
    have hsl : s.toNat < cl.length := by omega
    have hget : cl[s.toNat]? = some cl[s.toNat] := List.getElem?_eq_getElem hsl
    obtain ⟨a1, a2, a3, a4, a5⟩ := applyEntity_spec cl[s.toNat] k h hc
    obtain ⟨cl1, h1, hrun, hlen, hc1, hmono, hin, hout⟩ :=
      ih (s + 1) (cl.set s.toNat (CharacterMetadata.applyEntity cl[s.toNat] k h).1)
        (CharacterMetadata.applyEntity cl[s.toNat] k h).2 (by omega) (by omega)
        (by simpa using he) a4
    refine ⟨cl1, h1, ?_, by simpa using hlen, hc1,
      fun key v hkv => hmono key v (a5 key v hkv), ?_, ?_⟩
    · rw [applyEntityToContentBlock.loop_step k e s cl h _ hse hs hget]
      exact hrun
    · intro i hi1 hi2
      by_cases hi : i = s.toNat
      · subst hi
        have ho := hout s.toNat (by omega)
        rw [List.getElem?_set_self hsl] at ho
        exact ⟨cl[s.toNat], _, hget, ho, a1, a2, hmono _ _ a3⟩
      · obtain ⟨c, c1, hc0, hc1, hrest⟩ := hin i (by omega) hi2
        rw [List.getElem?_set_ne (fun heq => hi heq.symm)] at hc0
        exact ⟨c, c1, hc0, hc1, hrest⟩
    · intro i hi
      have hne : s.toNat ≠ i := by omega
      rw [hout i (by omega), List.getElem?_set_ne hne]

/-- The loop over a range whose characters already are pooled instances with the given
entity changes nothing. -/
theorem applyEntityToContentBlock.loop_fixed (k : Option String) (e : Int) (n : Nat) :
    ∀ (s : Int) (cl : List CharacterMetadata) (h : Heap), (e - s).toNat = n → 0 ≤ s →
      e ≤ (cl.length : Int) →
      (∀ i : Nat, s ≤ (i : Int) → (i : Int) < e →
        ∃ c, cl[i]? = some c ∧ c.getEntity = k ∧ h.Pooled c) →
      applyEntityToContentBlock.loop k e s cl h = .ok (cl, h) := by
  induction n with
  | zero =>
    intro s cl h hn hs he _
    exact applyEntityToContentBlock.loop_done k e s cl h (by omega)
  | succ n ih =>
    intro s cl h hn hs he hall
    have hse : s < e := by omega
    obtain ⟨c, hc, hck, hcp⟩ := hall s.toNat (by omega) (by omega)
    rw [applyEntityToContentBlock.loop_step k e s cl h c hse hs hc,
      applyEntity_same_key c k h hcp hck.symm]
    have hsame : cl.set s.toNat c = cl := by
      apply List.ext_getElem?
      intro i
      by_cases hi : s.toNat = i
      · subst hi
        rw [List.getElem?_set_self (by omega), hc]
      · rw [List.getElem?_set_ne hi]
    simp only [hsame]
    exact ih (s + 1) cl h (by omega) (by omega) he
      (fun i h1 h2 => hall i (by omega) h2)

/-- The function on a range inside the list, in a consistent pool, in terms of its loop. -/
theorem applyEntityToContentBlock_spec (b : ContentBlock) (s e : Int) (k : Option String)
    (h : Heap) (hc : h.pool.Consistent) (hs : 0 ≤ s) (he : e ≤ (b.characterList.length : Int)) :
    ∃ cl1 h1, applyEntityToContentBlock b s e k h =
        .ok (({ b with characterList := cl1 } : ContentBlock), h1) ∧
      cl1.length = b.characterList.length ∧ h1.pool.Consistent ∧
      (∀ i : Nat, s ≤ (i : Int) → (i : Int) < e →
        ∃ c c1, b.characterList[i]? = some c ∧ cl1[i]? = some c1 ∧ c1.getEntity = k ∧
          c1.getStyle = c.getStyle ∧ h1.Pooled c1) ∧
      (∀ i : Nat, ¬ (s ≤ (i : Int) ∧ (i : Int) < e) → cl1[i]? = b.characterList[i]?) := by
  obtain ⟨cl1, h1, hrun, hlen, hc1, _, hin, hout⟩ :=
    applyEntityToContentBlock.loop_spec k e (e - s).toNat s b.characterList h rfl hs he hc
  refine ⟨cl1, h1, ?_, hlen, hc1, hin, hout⟩
  simp [applyEntityToContentBlock, hrun]

/-- C2. For a block whose characterList has length N, a range 0 <= s <= e <= N and an entity
key k (or null), from every reachable pool state `applyEntityToContentBlock` returns a block
that differs from the given one in its characterList only; the list has the same length, every
character at an index in [s, e) has entity k and the style it had, every character at an
index outside [s, e) is the same instance as before, and with s = e the block is unchanged. -/
theorem applyEntityToContentBlock_range (b : ContentBlock) (s e : Int) (k : Option String)
    (h : Heap) (hr : h.Reachable) (hs : 0 ≤ s) (_hse : s ≤ e)
    (he : e ≤ (b.characterList.length : Int)) :
    ∃ b1 h1, applyEntityToContentBlock b s e k h = .ok (b1, h1) ∧
      b1 = { b with characterList := b1.characterList } ∧
      b1.characterList.length = b.characterList.length ∧
      (∀ i : Nat, s ≤ (i : Int) → (i : Int) < e →
        ∃ c c1, b.characterList[i]? = some c ∧ b1.characterList[i]? = some c1 ∧
          c1.getEntity = k ∧ c1.getStyle = c.getStyle) ∧
      (∀ i : Nat, ¬ (s ≤ (i : Int) ∧ (i : Int) < e) →
        b1.characterList[i]? = b.characterList[i]?) ∧
      (s = e → b1 = b) := by
  obtain ⟨cl1, h1, hrun, hlen, _, hin, hout⟩ :=
    applyEntityToContentBlock_spec b s e k h hr.consistent hs he
  refine ⟨_, h1, hrun, rfl, hlen, ?_, hout, ?_⟩
  · intro i h1 h2
    obtain ⟨c, c1, hc, hc1, hk, hst, _⟩ := hin i h1 h2
    exact ⟨c, c1, hc, hc1, hk, hst⟩
  · intro heq
    have hcl : cl1 = b.characterList := by
      apply List.ext_getElem?
      intro i
      exact hout i (by omega)
    rw [hcl]

/-- C2 at a concrete input: a block of three characters, the range [1, 2) and the entity
key 7, in the state after module load. -/
theorem applyEntityToContentBlock_range_witness :
    ∃ b1 h1,
      applyEntityToContentBlock
          ⟨"k", "unstyled", ['a', 'b', 'c'],
            [CharacterMetadata.EMPTY, CharacterMetadata.EMPTY, CharacterMetadata.EMPTY], 0⟩
          1 2 (some "7") Heap.init = .ok (b1, h1) ∧
      b1 = { (⟨"k", "unstyled", ['a', 'b', 'c'],
            [CharacterMetadata.EMPTY, CharacterMetadata.EMPTY, CharacterMetadata.EMPTY], 0⟩ :
              ContentBlock) with characterList := b1.characterList } ∧
      b1.characterList.length = 3 ∧
      (∀ i : Nat, (1 : Int) ≤ (i : Int) → (i : Int) < 2 →
        ∃ c c1, [CharacterMetadata.EMPTY, CharacterMetadata.EMPTY,
            CharacterMetadata.EMPTY][i]? = some c ∧ b1.characterList[i]? = some c1 ∧
          c1.getEntity = some "7" ∧ c1.getStyle = c.getStyle) ∧
      (∀ i : Nat, ¬ ((1 : Int) ≤ (i : Int) ∧ (i : Int) < 2) →
        b1.characterList[i]? = [CharacterMetadata.EMPTY, CharacterMetadata.EMPTY,
            CharacterMetadata.EMPTY][i]?) ∧
      ((1 : Int) = 2 → b1 = ⟨"k", "unstyled", ['a', 'b', 'c'],
            [CharacterMetadata.EMPTY, CharacterMetadata.EMPTY, CharacterMetadata.EMPTY], 0⟩) :=
  applyEntityToContentBlock_range
    ⟨"k", "unstyled", ['a', 'b', 'c'],
      [CharacterMetadata.EMPTY, CharacterMetadata.EMPTY, CharacterMetadata.EMPTY], 0⟩
    1 2 (some "7") Heap.init (Heap.Steps.refl _) (by decide) (by decide) (by decide)

/-- C10. `applyEntityToContentBlock` is idempotent: for a range 0 <= s <= e <= length and an
entity key k, from every reachable pool state, the first application returns a block, and
applying the same key to the same range of that block, in the pool the first application
left, returns the very same block (the same instances, so in particular a structurally equal
block) and leaves the pool as it is. -/
theorem applyEntityToContentBlock_idempotent (b : ContentBlock) (s e : Int)
    (k : Option String) (h : Heap) (hr : h.Reachable) (hs : 0 ≤ s) (_hse : s ≤ e)
    (he : e ≤ (b.characterList.length : Int)) :
    ∃ b1 h1, applyEntityToContentBlock b s e k h = .ok (b1, h1) ∧
      applyEntityToContentBlock b1 s e k h1 = .ok (b1, h1) := by
  obtain ⟨cl1, h1, hrun, hlen, _, hin, _⟩ :=
    applyEntityToContentBlock_spec b s e k h hr.consistent hs he
  refine ⟨_, h1, hrun, ?_⟩
  have hfix := applyEntityToContentBlock.loop_fixed k e (e - s).toNat s cl1 h1 rfl hs
    (by rw [hlen]; exact he)
    (fun i h1 h2 => by
      obtain ⟨c, c1, _, hc1, hk, _, hp⟩ := hin i h1 h2
      exact ⟨c1, hc1, hk, hp⟩)
  simp [applyEntityToContentBlock, hfix]

/-- C10 at a concrete input: a block of three characters, the range [0, 2) and the entity
key 7, in the state after module load. -/
theorem applyEntityToContentBlock_idempotent_witness :
    ∃ b1 h1,
      applyEntityToContentBlock
          ⟨"k", "unstyled", ['a', 'b', 'c'],
            [CharacterMetadata.EMPTY, CharacterMetadata.EMPTY, CharacterMetadata.EMPTY], 0⟩
          0 2 (some "7") Heap.init = .ok (b1, h1) ∧
      applyEntityToContentBlock b1 0 2 (some "7") h1 = .ok (b1, h1) :=
  applyEntityToContentBlock_idempotent
    ⟨"k", "unstyled", ['a', 'b', 'c'],
      [CharacterMetadata.EMPTY, CharacterMetadata.EMPTY, CharacterMetadata.EMPTY], 0⟩
    0 2 (some "7") Heap.init (Heap.Steps.refl _) (by decide) (by decide) (by decide)

/-! ## Navigation by key -/

/-- In a list of distinct keys, skipping until the key at index `i` and one further gives the
key at index `i + 1`, if any. -/
theorem skipUntil_drop_head_of_nodup (ks : List String) (hnd : ks.Nodup) (i : Nat)
    (hi : i < ks.length) :
    ((skipUntil (fun v => v == ks[i]) ks).drop 1).head? = ks[i + 1]? := by
  induction ks generalizing i with
  | nil => simp at hi
  | cons a t ih =>
    cases i with
    | zero =>
      simp only [skipUntil, List.getElem_cons_zero, List.dropWhile_cons, beq_self_eq_true,
        Bool.not_true, Bool.false_eq_true, if_false, List.drop_succ_cons, List.drop_zero,
        List.getElem?_cons_succ]
      cases t <;> simp
    | succ j =>
      have hj : j < t.length := by simpa using hi
      have hne : a ≠ t[j] := by
        intro heq
        have hmem : t[j] ∈ t := List.getElem_mem hj
        rw [← heq] at hmem
        exact (List.nodup_cons.mp hnd).1 hmem
      have hb : (a == t[j]) = false := by simpa using hne
      have ih1 := ih (List.nodup_cons.mp hnd).2 j hj
      simp only [skipUntil] at ih1
      simp only [skipUntil, List.getElem_cons_succ, List.dropWhile_cons, hb, Bool.not_false,
        if_true, List.getElem?_cons_succ]
      exact ih1

theorem skipUntil_of_not_mem (ks : List String) (k : String) (hk : k ∉ ks) :
    skipUntil (fun v => v == k) ks = [] := by
  induction ks with
  | nil => rfl
  | cons a t ih =>
    have hne : a ≠ k := fun heq => hk (heq ▸ List.mem_cons_self a t)
    have hb : (a == k) = false := by simpa using hne
    have ht : k ∉ t := fun hmem => hk (List.mem_cons_of_mem a hmem)
    have ih1 := ih ht
    simp only [skipUntil] at ih1
    simp only [skipUntil, List.dropWhile_cons, hb, Bool.not_false, if_true]
    exact ih1

theorem BlockMap.keySeq_reverse (m : BlockMap) :
    BlockMap.keySeq m.reverse = (BlockMap.keySeq m).reverse := by
  simp [BlockMap.keySeq, List.map_reverse]

/-- The method `getKeyAfter` on a block map of distinct keys. -/
theorem getKeyAfter_of_index (cs : ContentState) (m : BlockMap) (hm : cs.blockMap = some m)
    (hnd : (BlockMap.keySeq m).Nodup) (i : Nat) (hi : i < (BlockMap.keySeq m).length) :
    cs.getKeyAfter (BlockMap.keySeq m)[i] = .ok (BlockMap.keySeq m)[i + 1]? := by
  simp only [ContentState.getKeyAfter, ContentState.getBlockMap, hm]
  rw [skipUntil_drop_head_of_nodup _ hnd i hi]

/-- The method `getKeyBefore` on a block map of distinct keys. -/
theorem getKeyBefore_of_index (cs : ContentState) (m : BlockMap) (hm : cs.blockMap = some m)
    (hnd : (BlockMap.keySeq m).Nodup) (i : Nat) (hi : i < (BlockMap.keySeq m).length) :
    cs.getKeyBefore (BlockMap.keySeq m)[i] =
      .ok (if i = 0 then none else (BlockMap.keySeq m)[i - 1]?) := by
  simp only [ContentState.getKeyBefore, ContentState.getBlockMap, hm,
    BlockMap.keySeq_reverse]
  have hlen : (BlockMap.keySeq m).length - 1 - i < (BlockMap.keySeq m).reverse.length := by
    simp only [List.length_reverse]
    omega
  have hidx : (BlockMap.keySeq m).reverse[(BlockMap.keySeq m).length - 1 - i] =
      (BlockMap.keySeq m)[i] := by
    rw [List.getElem_reverse]
    congr 1
    omega
  have hstep := skipUntil_drop_head_of_nodup (BlockMap.keySeq m).reverse
    (List.nodup_reverse.mpr hnd) ((BlockMap.keySeq m).length - 1 - i) hlen
  rw [hidx] at hstep
  rw [hstep]
  congr 1
  by_cases h0 : i = 0
  · subst h0
    simp only [if_true]
    apply List.getElem?_eq_none
    simp only [List.length_reverse]
    omega
  · simp only [h0, if_false]
    rw [List.getElem?_reverse (by omega)]
    congr 1
    omega

theorem getKey_of_not_mem (cs : ContentState) (m : BlockMap) (hm : cs.blockMap = some m)
    (k : String) (hk : k ∉ BlockMap.keySeq m) :
    cs.getKeyBefore k = .ok none ∧ cs.getKeyAfter k = .ok none := by
  have hk1 : k ∉ (BlockMap.keySeq m).reverse := fun hmem => hk (List.mem_reverse.mp hmem)
  simp [ContentState.getKeyBefore, ContentState.getKeyAfter, ContentState.getBlockMap, hm,
    BlockMap.keySeq_reverse, skipUntil_of_not_mem _ k hk, skipUntil_of_not_mem _ k hk1]

/-- In a block map of distinct keys, `get` of the key at an index is the block at that index. -/
theorem BlockMap.get_of_index (m : BlockMap) (hnd : (BlockMap.keySeq m).Nodup) (i : Nat)
    (k : String) (b : ContentBlock) (hi : m[i]? = some (k, b)) : m.get k = some b := by
  induction m generalizing i with
  | nil => simp at hi
  | cons e rest ih =>
    obtain ⟨k0, b0⟩ := e
    cases i with
    | zero =>
      simp only [List.getElem?_cons_zero, Option.some.injEq, Prod.mk.injEq] at hi
      simp [BlockMap.get, hi.1, hi.2]
    | succ j =>
      simp only [List.getElem?_cons_succ] at hi
      have hnd1 := List.nodup_cons.mp (show (k0 :: rest.map Prod.fst).Nodup from hnd)
      have hmem : k ∈ rest.map Prod.fst :=
        List.mem_map.mpr ⟨(k, b), List.mem_iff_getElem?.mpr ⟨j, hi⟩, rfl⟩
      have hne : k0 ≠ k := fun heq => hnd1.1 (heq ▸ hmem)
      have hrest := ih hnd1.2 j hi
      simp [BlockMap.get, hne, hrest]

/-- C7. For a content state whose block keys in document order are distinct: `getKeyBefore` of
the key at index i is the key at index i - 1 when i > 0 and is absent for the first key;
`getKeyAfter` of the key at index i is the key at index i + 1, absent for the last key; both are
absent for a string that is not a key of the block map.  Neither call fails. -/
theorem getKeyBefore_getKeyAfter_navigation (cs : ContentState) (m : BlockMap)
    (hm : cs.blockMap = some m) (hnd : (BlockMap.keySeq m).Nodup) :
    (∀ (i : Nat) (hi : i < (BlockMap.keySeq m).length),
      cs.getKeyBefore (BlockMap.keySeq m)[i] =
          .ok (if i = 0 then none else (BlockMap.keySeq m)[i - 1]?) ∧
      cs.getKeyAfter (BlockMap.keySeq m)[i] = .ok (BlockMap.keySeq m)[i + 1]?) ∧
    (∀ k : String, k ∉ BlockMap.keySeq m →
      cs.getKeyBefore k = .ok none ∧ cs.getKeyAfter k = .ok none) :=
  ⟨fun i hi => ⟨getKeyBefore_of_index cs m hm hnd i hi, getKeyAfter_of_index cs m hm hnd i hi⟩,
    fun k hk => getKey_of_not_mem cs m hm k hk⟩

/-- C7 at a concrete input: the content state of the two blocks k1 and k2. -/
theorem getKeyBefore_getKeyAfter_navigation_witness :
    (∀ (i : Nat) (hi : i < (BlockMap.keySeq sampleBlockMap).length),
      sampleContent.getKeyBefore (BlockMap.keySeq sampleBlockMap)[i] =
          .ok (if i = 0 then none else (BlockMap.keySeq sampleBlockMap)[i - 1]?) ∧
      sampleContent.getKeyAfter (BlockMap.keySeq sampleBlockMap)[i] =
          .ok (BlockMap.keySeq sampleBlockMap)[i + 1]?) ∧
    (∀ k : String, k ∉ BlockMap.keySeq sampleBlockMap →
      sampleContent.getKeyBefore k = .ok none ∧ sampleContent.getKeyAfter k = .ok none) :=
  getKeyBefore_getKeyAfter_navigation sampleContent sampleBlockMap (by decide) (by decide)

/-! ## moveSelectionBackward -/

/-- C3. For an editor state whose selection is collapsed at (key, O) and a maxDistance D with
D <= O, `moveSelectionBackward` returns a selection with focusKey = key, focusOffset = O - D and
isBackward = true. -/
theorem moveSelectionBackward_within_block (es : EditorState) (D : Int) (key : String)
    (O : Int) (hak : es.selection.anchorKey = key) (hfk : es.selection.focusKey = key)
    (hao : es.selection.anchorOffset = O) (hfo : es.selection.focusOffset = O) (hD : D ≤ O) :
    ∃ sel, moveSelectionBackward es D = .ok sel ∧ sel.focusKey = key ∧
      sel.focusOffset = O - D ∧ sel.isBackward = true := by
  have hkey : es.selection.getStartKey = key := by
    simp [SelectionState.getStartKey, hak, hfk]
  have hoff : es.selection.getStartOffset = O := by
    simp [SelectionState.getStartOffset, hao, hfo]
  refine ⟨es.selection.merge key (O - D) true, ?_, rfl, rfl, rfl⟩
  simp [moveSelectionBackward, hkey, hoff, not_lt.mpr hD]

/-- C3 at a concrete input: the caret at offset 3 of the block k2, moved back by 2. -/
theorem moveSelectionBackward_within_block_witness :
    ∃ sel, moveSelectionBackward (sampleEditor ⟨"k2", 3, "k2", 3, false, true⟩) 2 = .ok sel ∧
      sel.focusKey = "k2" ∧ sel.focusOffset = 3 - 2 ∧ sel.isBackward = true :=
  moveSelectionBackward_within_block (sampleEditor ⟨"k2", 3, "k2", 3, false, true⟩) 2 "k2" 3
    rfl rfl rfl rfl (by decide)

/-- C4. For an editor state whose selection starts at (key, O), a maxDistance D > O, and a
content (of distinct block keys) in which the block of `key` comes right after a block stored
under the key kp with a text of length L, `moveSelectionBackward` returns a selection whose
focusKey is kp and whose focusOffset is L, however large D is. -/
theorem moveSelectionBackward_previous_block (es : EditorState) (D : Int) (m : BlockMap)
    (i : Nat) (kp : String) (bp b : ContentBlock)
    (hm : es.currentContent.blockMap = some m) (hnd : (BlockMap.keySeq m).Nodup)
    (hprev : m[i]? = some (kp, bp)) (hcur : m[i + 1]? = some (es.selection.getStartKey, b))
    (hD : D > es.selection.getStartOffset) :
    ∃ sel, moveSelectionBackward es D = .ok sel ∧ sel.focusKey = kp ∧
      sel.focusOffset = (bp.text.length : Int) := by
  have hk1 : (BlockMap.keySeq m)[i + 1]? = some es.selection.getStartKey := by
    simp [BlockMap.keySeq, hcur]
  have hk0 : (BlockMap.keySeq m)[i]? = some kp := by
    simp [BlockMap.keySeq, hprev]
  obtain ⟨hi, hkey⟩ := List.getElem?_eq_some_iff.mp hk1
  have hbefore := getKeyBefore_of_index es.currentContent m hm hnd (i + 1) hi
  rw [hkey] at hbefore
  simp only [Nat.add_one_ne_zero, if_false, Nat.add_sub_cancel, hk0] at hbefore
  have hblock : es.currentContent.getBlockForKey kp = .ok (some bp) := by
    simp [ContentState.getBlockForKey, ContentState.getBlockMap, hm,
      BlockMap.get_of_index m hnd i kp bp hprev]
  refine ⟨es.selection.merge kp (bp.text.length : Int) true, ?_, rfl, rfl⟩
  simp [moveSelectionBackward, hD, hbefore, hblock]

/-- C4 at a concrete input: the caret at offset 1 of the block k2, moved back by 50; the block
before it, k1, has a text of length 2. -/
theorem moveSelectionBackward_previous_block_witness :
    ∃ sel, moveSelectionBackward (sampleEditor ⟨"k2", 1, "k2", 1, false, true⟩) 50 = .ok sel ∧
      sel.focusKey = "k1" ∧
      sel.focusOffset = (((sampleBlock "k1" ['a', 'b']).text.length : Nat) : Int) :=
  moveSelectionBackward_previous_block (sampleEditor ⟨"k2", 1, "k2", 1, false, true⟩) 50
    sampleBlockMap 0 "k1" (sampleBlock "k1" ['a', 'b']) (sampleBlock "k2" ['c', 'd', 'e'])
    (by decide) (by decide) (by decide) (by decide) (by decide)

/-- C5. For an editor state whose selection starts at (key, O) where `key` is the key of the
first block of the content (of distinct block keys), and a maxDistance D > O,
`moveSelectionBackward` does not fail and returns a selection with focusKey = key and
focusOffset = 0. -/
theorem moveSelectionBackward_document_start (es : EditorState) (D : Int) (b : ContentBlock)
    (rest : BlockMap)
    (hm : es.currentContent.blockMap = some ((es.selection.getStartKey, b) :: rest))
    (hnd : (BlockMap.keySeq ((es.selection.getStartKey, b) :: rest)).Nodup)
    (hD : D > es.selection.getStartOffset) :
    ∃ sel, moveSelectionBackward es D = .ok sel ∧
      sel.focusKey = es.selection.getStartKey ∧ sel.focusOffset = 0 := by
  have hbefore := getKeyBefore_of_index es.currentContent _ hm hnd 0
    (by simp [BlockMap.keySeq])
  simp only [BlockMap.keySeq, List.map_cons, List.getElem_cons_zero, if_true] at hbefore
  refine ⟨es.selection.merge es.selection.getStartKey 0 true, ?_, rfl, rfl⟩
  simp [moveSelectionBackward, hD, hbefore]

/-- C5 at a concrete input: the caret at offset 1 of the first block k1, moved back by 50. -/
theorem moveSelectionBackward_document_start_witness :
    ∃ sel, moveSelectionBackward (sampleEditor ⟨"k1", 1, "k1", 1, false, true⟩) 50 = .ok sel ∧
      sel.focusKey = (SelectionState.mk "k1" 1 "k1" 1 false true).getStartKey ∧
      sel.focusOffset = 0 :=
  moveSelectionBackward_document_start (sampleEditor ⟨"k1", 1, "k1", 1, false, true⟩) 50
    (sampleBlock "k1" ['a', 'b']) [("k2", sampleBlock "k2" ['c', 'd', 'e'])]
    (by decide) (by decide) (by decide)

/-! ## Plain text -/

theorem join_foldl_not_first (sep : JSString) (l : List JSString) (acc : JSString) :
    (l.foldl
      (fun (st : JSString × Bool) v => (if st.2 then st.1 ++ v else st.1 ++ sep ++ v, false))
      (acc, false)).1 = acc ++ (l.map (fun v => sep ++ v)).flatten := by
  induction l generalizing acc with
  | nil => simp
  | cons v rest ih =>
    simp only [List.foldl_cons, Bool.false_eq_true, if_false]
    rw [ih]
    simp [List.append_assoc]

theorem intercalate_cons (sep a : JSString) (l : List JSString) :
    sep.intercalate (a :: l) = a ++ (l.map (fun v => sep ++ v)).flatten := by
  induction l generalizing a with
  | nil => simp [List.intercalate]
  | cons b rest ih =>
    have h := ih b
    simp only [List.intercalate, List.intersperse] at h ⊢
    simp [List.intersperse, h]

/-- The loop of `join` computes the texts with the separator between them. -/
theorem join_eq_intercalate (texts : List JSString) (sep : JSString) :
    join texts sep = sep.intercalate texts := by
  cases texts with
  | nil => simp [join, List.intercalate]
  | cons a l =>
    rw [intercalate_cons]
    simp only [join, List.foldl_cons, if_true, List.nil_append]
    exact join_foldl_not_first sep l a

/-- C8, as amended. For a content state with a block map and a non-empty delimiter string d,
`getPlainText(d)` is the texts of all blocks in document order with d between them; with no
delimiter given it is the texts with a newline between them. -/
theorem getPlainText_joins (cs : ContentState) (m : BlockMap) (hm : cs.blockMap = some m) :
    (∀ d : JSString, d ≠ [] →
      cs.getPlainText (some d) = .ok (d.intercalate (m.map (fun e => e.2.text)))) ∧
    cs.getPlainText none = .ok (['\n'].intercalate (m.map (fun e => e.2.text))) := by
  constructor
  · intro d hd
    cases d with
    | nil => exact absurd rfl hd
    | cons c cs1 =>
      simp [ContentState.getPlainText, ContentState.getBlockMap, hm, delimiterOrNewline,
        join_eq_intercalate]
  · simp [ContentState.getPlainText, ContentState.getBlockMap, hm, delimiterOrNewline,
      join_eq_intercalate]

/-- C8, as amended, at a concrete input: the content state of the two blocks k1 and k2. -/
theorem getPlainText_joins_witness :
    (∀ d : JSString, d ≠ [] →
      sampleContent.getPlainText (some d) =
        .ok (d.intercalate (sampleBlockMap.map (fun e => e.2.text)))) ∧
    sampleContent.getPlainText none =
      .ok (['\n'].intercalate (sampleBlockMap.map (fun e => e.2.text))) :=
  getPlainText_joins sampleContent sampleBlockMap (by decide)

/-- C8 fails as stated for the empty delimiter: on the two blocks ab and cde,
`getPlainText('')` puts a newline between the texts, where the texts joined by the empty string
are abcde. -/
theorem getPlainText_empty_delimiter_counterexample :
    sampleContent.blockMap = some sampleBlockMap ∧
    sampleContent.getPlainText (some []) = .ok ['a', 'b', '\n', 'c', 'd', 'e'] ∧
    sampleContent.getPlainText (some []) ≠
      .ok (([] : JSString).intercalate (sampleBlockMap.map (fun e => e.2.text))) := by
  refine ⟨by decide, by decide, by decide⟩

/-! ## Splitting a text and joining it again -/

theorem jsSplit.go_nil (sep cur : JSString) : jsSplit.go sep cur [] = [cur] := by
  rw [jsSplit.go]

theorem jsSplit.go_cons_match (sep cur : JSString) (c : Char) (cs : JSString)
    (hp : sep.isPrefixOf (c :: cs) = true) :
    jsSplit.go sep cur (c :: cs) = cur :: jsSplit.go sep [] (cs.drop (sep.length - 1)) := by
  rw [jsSplit.go]
  simp only [hp, if_true]

theorem jsSplit.go_cons_no_match (sep cur : JSString) (c : Char) (cs : JSString)
    (hp : sep.isPrefixOf (c :: cs) = false) :
    jsSplit.go sep cur (c :: cs) = jsSplit.go sep (cur ++ [c]) cs := by
  rw [jsSplit.go]
  simp only [hp, Bool.false_eq_true, if_false]

theorem intercalate_cons_of_ne_nil (sep a : JSString) (l : List JSString) (hl : l ≠ []) :
    sep.intercalate (a :: l) = a ++ sep ++ sep.intercalate l := by
  obtain ⟨b, rest, rfl⟩ := List.exists_cons_of_ne_nil hl
  rw [intercalate_cons, intercalate_cons]
  simp [List.append_assoc]

/-- The scan of `split` returns at least one segment, and the segments with the separator
between them are the segment being read followed by the rest of the text. -/
theorem jsSplit.go_intercalate (sep : JSString) (hsep : sep ≠ []) (n : Nat) :
    ∀ (rest cur : JSString), rest.length = n →
      jsSplit.go sep cur rest ≠ [] ∧ sep.intercalate (jsSplit.go sep cur rest) = cur ++ rest := by
  induction n using Nat.strong_induction_on with
  | _ n ih =>
    intro rest cur hlen
    cases rest with
    | nil =>
      rw [jsSplit.go_nil]
      simp [List.intercalate]
    | cons c cs =>
      cases hp : sep.isPrefixOf (c :: cs) with
      | true =>
        rw [jsSplit.go_cons_match sep cur c cs hp]
        obtain ⟨t, ht⟩ := List.isPrefixOf_iff_prefix.mp hp
        obtain ⟨c0, sep1, rfl⟩ := List.exists_cons_of_ne_nil hsep
        simp only [List.cons_append, List.cons.injEq] at ht
        obtain ⟨rfl, rfl⟩ := ht
        have hdrop : (sep1 ++ t).drop ((c0 :: sep1).length - 1) = t := by simp
        rw [hdrop]
        have hlt : t.length < n := by
          rw [← hlen]
          simp only [List.length_cons, List.length_append]
          omega
        obtain ⟨hne, hint⟩ := ih t.length hlt t [] rfl
        refine ⟨by simp, ?_⟩
        rw [intercalate_cons_of_ne_nil _ _ _ hne, hint]
        simp [List.append_assoc]
      | false =>
        rw [jsSplit.go_cons_no_match sep cur c cs hp]
        have hlt : cs.length < n := by
          rw [← hlen]
          simp
        obtain ⟨hne, hint⟩ := ih cs.length hlt cs (cur ++ [c]) rfl
        exact ⟨hne, by rw [hint]; simp [List.append_assoc]⟩

/-- Splitting on a non-empty separator and joining with it gives the text back. -/
theorem jsSplit_intercalate (t d : JSString) (hd : d ≠ []) :
    d.intercalate (jsSplit t d) = t := by
  cases d with
  | nil => exact absurd rfl hd
  | cons c cs =>
    simp only [jsSplit]
    simpa using (jsSplit.go_intercalate (c :: cs) hd t.length t [] rfl).2

theorem mem_intercalate_of_mem (sep : JSString) (segs : List JSString) (seg : JSString)
    (hseg : seg ∈ segs) (c : Char) (hc : c ∈ seg) : c ∈ sep.intercalate segs := by
  cases segs with
  | nil => simp at hseg
  | cons a l =>
    rw [intercalate_cons]
    rcases List.mem_cons.mp hseg with rfl | hmem
    · exact List.mem_append_left _ hc
    · apply List.mem_append_right
      exact List.mem_flatten.mpr
        ⟨sep ++ seg, List.mem_map.mpr ⟨seg, hmem, rfl⟩, List.mem_append_right _ hc⟩

/-! ## Building a content state -/

theorem BlockMap.set_of_not_mem (m : BlockMap) (k : String) (b : ContentBlock)
    (hk : k ∉ BlockMap.keySeq m) : m.set k b = m ++ [(k, b)] := by
  induction m with
  | nil => rfl
  | cons e rest ih =>
    obtain ⟨k0, b0⟩ := e
    have hne : k0 ≠ k := fun heq => hk (by simp [BlockMap.keySeq, heq])
    have hrest : k ∉ BlockMap.keySeq rest := fun hmem =>
      hk (by simp only [BlockMap.keySeq, List.map_cons]; exact List.mem_cons_of_mem _ hmem)
    simp [BlockMap.set, hne, ih hrest]

theorem BlockMapBuilder.foldl_of_nodup (blocks : List ContentBlock) :
    ∀ m : BlockMap, (∀ b ∈ blocks, b.key ∉ BlockMap.keySeq m) →
      (blocks.map (fun b => b.key)).Nodup →
      blocks.foldl (fun m b => BlockMap.set m b.key b) m =
        m ++ blocks.map (fun b => (b.key, b)) := by
  induction blocks with
  | nil => intro m _ _; simp
  | cons b rest ih =>
    intro m hm hnd
    have hnd1 := List.nodup_cons.mp (show (b.key :: rest.map (fun b => b.key)).Nodup from hnd)
    simp only [List.foldl_cons, List.map_cons]
    rw [BlockMap.set_of_not_mem m b.key b (hm b (List.mem_cons_self _ _))]
    rw [ih (m ++ [(b.key, b)]) ?_ hnd1.2]
    · simp [List.append_assoc]
    · intro b1 hb1 hmem
      simp only [BlockMap.keySeq, List.map_append, List.map_cons, List.map_nil,
        List.mem_append, List.mem_singleton] at hmem
      rcases hmem with hmem | heq
      · exact hm b1 (List.mem_cons_of_mem _ hb1) (by simpa [BlockMap.keySeq] using hmem)
      · exact hnd1.1 (heq ▸ List.mem_map.mpr ⟨b1, hb1, rfl⟩)

/-- Blocks of distinct keys are stored in their order, each under its key. -/
theorem BlockMapBuilder.createFromArray_of_nodup (blocks : List ContentBlock)
    (hnd : (blocks.map (fun b => b.key)).Nodup) :
    BlockMapBuilder.createFromArray blocks = blocks.map (fun b => (b.key, b)) := by
  have h := BlockMapBuilder.foldl_of_nodup blocks [] (fun _ _ hmem => by
    simp [BlockMap.keySeq] at hmem) hnd
  simpa [BlockMapBuilder.createFromArray] using h

theorem createFromText.blocks_keys (gen : Nat → String) (strips : Char → Bool)
    (strings : List JSString) : ∀ n : Nat,
    (createFromText.blocks gen strips n strings).map (fun b => b.key) =
      (List.range' n strings.length).map gen := by
  induction strings with
  | nil => intro n; rfl
  | cons a rest ih =>
    intro n
    simp [createFromText.blocks, List.range', ih (n + 1)]

theorem createFromText.blocks_texts (gen : Nat → String) (strips : Char → Bool)
    (strings : List JSString) : ∀ n : Nat,
    (createFromText.blocks gen strips n strings).map (fun b => b.text) =
      strings.map (sanitizeDraftText strips) := by
  induction strings with
  | nil => intro n; rfl
  | cons a rest ih =>
    intro n
    simp [createFromText.blocks, ih (n + 1)]

theorem sanitizeDraftText_of_clean (strips : Char → Bool) (input : JSString)
    (hclean : ∀ c ∈ input, strips c = false) : sanitizeDraftText strips input = input := by
  unfold sanitizeDraftText
  apply List.filter_eq_self.mpr
  intro c hc
  simp [hclean c hc]

/-- The block map of `createFromText` when the key generator does not repeat a key: the
blocks of the segments, in order. -/
theorem createFromText_blockMap (gen : Nat → String) (strips : Char → Bool) (t : JSString)
    (delimiter : Option Delimiter) (hgen : Function.Injective gen) :
    (ContentState.createFromText gen strips t delimiter).blockMap =
      some ((createFromText.blocks gen strips 0
        (splitBy t (delimiter.getD Delimiter.lineBreaks))).map (fun b => (b.key, b))) := by
  have hnd : ((createFromText.blocks gen strips 0
      (splitBy t (delimiter.getD Delimiter.lineBreaks))).map (fun b => b.key)).Nodup := by
    rw [createFromText.blocks_keys]
    exact List.Nodup.map hgen (List.nodup_range' _ _)
  simp [ContentState.createFromText, ContentState.createFromBlockArray,
    BlockMapBuilder.createFromArray_of_nodup _ hnd]

theorem delimiterOrNewline_of_ne_nil (d : JSString) (hd : d ≠ []) :
    delimiterOrNewline (some d) = d := by
  cases d with
  | nil => exact absurd rfl hd
  | cons c cs => rfl

theorem sampleKey_injective : Function.Injective sampleKey := by
  intro a b hab
  have hlen := congrArg String.length hab
  simpa [sampleKey, String.length] using hlen

/-- The texts of the blocks of `createFromText` are the segments, when the text holds no
character that is stripped and it is split on a non-empty string. -/
theorem createFromText_texts (gen : Nat → String) (strips : Char → Bool) (t d : JSString)
    (hd : d ≠ []) (hclean : ∀ c ∈ t, strips c = false) :
    (createFromText.blocks gen strips 0 (jsSplit t d)).map (fun b => b.text) = jsSplit t d := by
  rw [createFromText.blocks_texts]
  conv_rhs => rw [← List.map_id (jsSplit t d)]
  apply List.map_congr_left
  intro seg hseg
  apply sanitizeDraftText_of_clean
  intro c hc
  apply hclean
  have hmem := mem_intercalate_of_mem d (jsSplit t d) seg hseg c hc
  rwa [jsSplit_intercalate t d hd] at hmem

/-- C6, as amended. Round trip: for a text t that holds no character `sanitizeDraftText`
strips and a non-empty delimiter string d, with a key generator that does not repeat a key,
the blocks of `createFromText(t, d)` hold the segments of t split on d, and
`getPlainText(d)` of that content state is t. -/
theorem createFromText_getPlainText_roundtrip (gen : Nat → String) (strips : Char → Bool)
    (t d : JSString) (hgen : Function.Injective gen) (hd : d ≠ [])
    (hclean : ∀ c ∈ t, strips c = false) :
    (∃ m, (ContentState.createFromText gen strips t (some (.string d))).blockMap = some m ∧
      m.map (fun e => e.2.text) = jsSplit t d) ∧
    (ContentState.createFromText gen strips t (some (.string d))).getPlainText (some d) =
      .ok t := by
  have hbm := createFromText_blockMap gen strips t (some (.string d)) hgen
  simp only [Option.getD_some, splitBy] at hbm
  have htexts : ((createFromText.blocks gen strips 0 (jsSplit t d)).map
      (fun b => (b.key, b))).map (fun e => e.2.text) = jsSplit t d := by
    rw [List.map_map]
    exact createFromText_texts gen strips t d hd hclean
  refine ⟨⟨_, hbm, htexts⟩, ?_⟩
  simp only [ContentState.getPlainText, ContentState.getBlockMap, hbm, htexts,
    delimiterOrNewline_of_ne_nil d hd, join_eq_intercalate, jsSplit_intercalate t d hd]

/-- C6, as amended, at the input of the spec: the text a, newline, b split on the newline
gives the two segments a and b, and the plain text is the text again.  The stripped character
is the carriage return. -/
theorem createFromText_getPlainText_roundtrip_witness :
    jsSplit ['a', '\n', 'b'] ['\n'] = [['a'], ['b']] ∧
    (∃ m, (ContentState.createFromText sampleKey (fun c => c == '\r') ['a', '\n', 'b']
        (some (.string ['\n']))).blockMap = some m ∧
      m.map (fun e => e.2.text) = jsSplit ['a', '\n', 'b'] ['\n']) ∧
    (ContentState.createFromText sampleKey (fun c => c == '\r') ['a', '\n', 'b']
      (some (.string ['\n']))).getPlainText (some ['\n']) = .ok ['a', '\n', 'b'] :=
  ⟨by simp [jsSplit, jsSplit.go],
    createFromText_getPlainText_roundtrip sampleKey (fun c => c == '\r') ['a', '\n', 'b']
      ['\n'] sampleKey_injective (by decide) (by decide)⟩

/-- C6 fails as stated for the empty delimiter: the text ab split on the empty string gives
the blocks a and b, and `getPlainText('')` joins them with a newline, which is not the text. -/
theorem createFromText_getPlainText_counterexample :
    Function.Injective sampleKey ∧
    (∀ c ∈ ['a', 'b'], (fun _ : Char => false) c = false) ∧
    (ContentState.createFromText sampleKey (fun _ => false) ['a', 'b']
      (some (.string []))).getPlainText (some []) = .ok ['a', '\n', 'b'] ∧
    (ContentState.createFromText sampleKey (fun _ => false) ['a', 'b']
      (some (.string []))).getPlainText (some []) ≠ .ok ['a', 'b'] := by
  refine ⟨sampleKey_injective, by decide, by decide, by decide⟩

/-! ## applyStyle and removeStyle -/

theorem RecordMap.with_style_eq_iff (m : RecordMap) (st : DraftInlineStyle) :
    (⟨some st, m.entity⟩ : RecordMap) = m ↔ m.style = some st := by
  cases m with
  | mk s e =>
    constructor
    · intro h
      exact (congrArg RecordMap.style h).symm
    · intro h
      simp only at h
      rw [h]

/-- What `create` returns for the record `record.set('style', st)`, in a consistent pool. -/
theorem setStyle_create_spec (r : CharacterMetadata) (st : DraftInlineStyle) (h : Heap)
    (hc : h.pool.Consistent) :
    (CharacterMetadata.create (some (.record (r.setStyle st h).1)) (r.setStyle st h).2).1.map =
      ⟨some st, r.map.entity⟩ ∧
    (CharacterMetadata.create (some (.record (r.setStyle st h).1))
      (r.setStyle st h).2).1.ownerID = (if r.map.style = some st then r.ownerID else true) ∧
    (CharacterMetadata.create (some (.record (r.setStyle st h).1)) (r.setStyle st h).2).2.Pooled
      (CharacterMetadata.create (some (.record (r.setStyle st h).1)) (r.setStyle st h).2).1 ∧
    Heap.Steps h
      (CharacterMetadata.create (some (.record (r.setStyle st h).1)) (r.setStyle st h).2).2 := by
  obtain ⟨w1, w2, w3, w4⟩ := withMap_spec r ⟨some st, r.map.entity⟩ h
  have hc1 : (r.setStyle st h).2.pool.Consistent := by
    unfold CharacterMetadata.setStyle
    rw [w3]
    exact hc
  obtain ⟨h1, h2, h3⟩ := create_record_spec (r.setStyle st h).1 (r.setStyle st h).2 hc1
  refine ⟨h1.trans w1, ?_, h3, Heap.Steps.tail w4 (Heap.Step.create _ _)⟩
  rw [h2]
  unfold CharacterMetadata.setStyle
  rw [w2]
  by_cases hs : r.map.style = some st
  · simp [hs, (RecordMap.with_style_eq_iff r.map st).mpr hs]
  · have hne : ¬ (⟨some st, r.map.entity⟩ : RecordMap) = r.map :=
      fun heq => hs ((RecordMap.with_style_eq_iff r.map st).mp heq)
    simp [hs, hne]

/-- What `applyStyle` returns from a reachable state, with the own properties of the
returned record: the map of the record with the new style, and the own property
`__ownerID` unless `set` returned the record itself. -/
theorem applyStyle_result (r : CharacterMetadata) (s : String) {h : Heap} (hr : h.Reachable) :
    (CharacterMetadata.applyStyle r s h).1.map =
      ⟨some (OrderedSet.add r.getStyle s), r.map.entity⟩ ∧
    (CharacterMetadata.applyStyle r s h).1.ownerID =
      (if r.map.style = some (OrderedSet.add r.getStyle s) then r.ownerID else true) ∧
    (CharacterMetadata.applyStyle r s h).2.Pooled (CharacterMetadata.applyStyle r s h).1 ∧
    Heap.Steps h (CharacterMetadata.applyStyle r s h).2 :=
  setStyle_create_spec r (OrderedSet.add r.getStyle s) h hr.consistent

theorem applyStyle_steps (r : CharacterMetadata) (s : String) {h : Heap} (hr : h.Reachable) :
    Heap.Steps h (CharacterMetadata.applyStyle r s h).2 :=
  (applyStyle_result r s hr).2.2.2

/-- What `applyStyle` returns from a reachable state: an instance whose ordered style set is
that of the record with the tag added and whose entity is that of the record, pooled under
its own key. -/
theorem applyStyle_spec (r : CharacterMetadata) (s : String) {h : Heap} (hr : h.Reachable) :
    (CharacterMetadata.applyStyle r s h).1.getStyle = OrderedSet.add r.getStyle s ∧
    (CharacterMetadata.applyStyle r s h).1.getEntity = r.getEntity ∧
    (CharacterMetadata.applyStyle r s h).2.Pooled (CharacterMetadata.applyStyle r s h).1 := by
  obtain ⟨hmap, _, h3, _⟩ := applyStyle_result r s hr
  refine ⟨?_, ?_, h3⟩
  · simp [CharacterMetadata.getStyle, hmap]
  · simp [CharacterMetadata.getEntity, hmap]

/-- What `removeStyle` returns from a reachable state: an instance whose ordered style set is
that of the record without the tag and whose entity is that of the record, pooled under its
own key. -/
theorem removeStyle_spec (r : CharacterMetadata) (s : String) {h : Heap} (hr : h.Reachable) :
    (CharacterMetadata.removeStyle r s h).1.getStyle = OrderedSet.remove r.getStyle s ∧
    (CharacterMetadata.removeStyle r s h).1.getEntity = r.getEntity ∧
    (CharacterMetadata.removeStyle r s h).2.Pooled (CharacterMetadata.removeStyle r s h).1 := by
  obtain ⟨h1, _, h3, _⟩ :=
    setStyle_create_spec r (OrderedSet.remove r.getStyle s) h hr.consistent
  have hmap : (CharacterMetadata.removeStyle r s h).1.map =
      ⟨some (OrderedSet.remove r.getStyle s), r.map.entity⟩ := h1
  refine ⟨?_, ?_, h3⟩
  · simp [CharacterMetadata.getStyle, hmap]
  · simp [CharacterMetadata.getEntity, hmap]

theorem OrderedSet.mem_add (S : DraftInlineStyle) (s t : String) :
    t ∈ OrderedSet.add S s ↔ t ∈ S ∨ t = s := by
  unfold OrderedSet.add
  by_cases hs : s ∈ S
  · simp only [hs, if_true]
    constructor
    · exact Or.inl
    · rintro (h1 | h1)
      · exact h1
      · exact h1 ▸ hs
  · simp [hs]

theorem OrderedSet.mem_remove (S : DraftInlineStyle) (s t : String) :
    t ∈ OrderedSet.remove S s ↔ t ∈ S ∧ t ≠ s := by
  simp [OrderedSet.remove, List.mem_filter]

/-! ## applyEntity with the record's own entity -/

/-- A record an earlier call of `applyEntity`, `applyStyle` or `removeStyle` returned is the
instance the pool holds under the record's own key. -/
theorem Heap.Returned.pooled {h : Heap} {r : CharacterMetadata} (hret : h.Returned r) :
    h.Pooled r := by
  cases hret with
  | applyEntity r0 k0 h0 hr heq hs =>
    rw [heq]
    exact (applyEntity_spec r0 k0 h0 hr.consistent).2.2.1.of_steps hs
  | applyStyle r0 s0 h0 hr heq hs =>
    rw [heq]
    exact (applyStyle_spec r0 s0 hr).2.2.of_steps hs
  | removeStyle r0 s0 h0 hr heq hs =>
    rw [heq]
    exact (removeStyle_spec r0 s0 hr).2.2.of_steps hs

/-- C9, as amended. For a record r that an earlier call of `applyEntity`, `applyStyle` or
`removeStyle` returned, and an entity key k equal to the entity of r, `applyEntity(r, k)`
returns r itself and leaves the pool and the allocator as they are. -/
theorem applyEntity_same_key_returned (r : CharacterMetadata) (k : Option String) (h : Heap)
    (hret : h.Returned r) (hk : k = r.getEntity) :
    CharacterMetadata.applyEntity r k h = (r, h) :=
  applyEntity_same_key r k h hret.pooled hk

/-- C9, as amended, at a concrete input: the record `applyEntity(EMPTY, 'x')` returned from
the state after module load, in the state that call left. -/
theorem applyEntity_same_key_returned_witness :
    CharacterMetadata.applyEntity
        (CharacterMetadata.applyEntity CharacterMetadata.EMPTY (some "x") Heap.init).1
        (some "x")
        (CharacterMetadata.applyEntity CharacterMetadata.EMPTY (some "x") Heap.init).2 =
      ((CharacterMetadata.applyEntity CharacterMetadata.EMPTY (some "x") Heap.init).1,
        (CharacterMetadata.applyEntity CharacterMetadata.EMPTY (some "x") Heap.init).2) :=
  applyEntity_same_key_returned _ (some "x") _
    (Heap.Returned.applyEntity CharacterMetadata.EMPTY (some "x") Heap.init
      (Heap.Steps.refl _) rfl (Heap.Steps.refl _))
    (by decide)

/-- C9 fails as stated.  In the state after module load `applyEntity(EMPTY, null)` returns
`EMPTY` but adds an entry to the pool, which then has two entries.  And after
`w = applyEntity(EMPTY, 'x')`, the record `r = EMPTY.set('entity', 'x')` is a new object with
the entity x, and `applyEntity(r, 'x')` returns `w`, not `r`. -/
theorem applyEntity_same_key_counterexample :
    (CharacterMetadata.applyEntity CharacterMetadata.EMPTY none Heap.init).1 =
      CharacterMetadata.EMPTY ∧
    Heap.init.pool.length = 1 ∧
    (CharacterMetadata.applyEntity CharacterMetadata.EMPTY none Heap.init).2.pool.length = 2 ∧
    (CharacterMetadata.applyEntity CharacterMetadata.EMPTY (some "x") Heap.init).1 =
      ⟨1, ⟨none, some (some "x")⟩, true⟩ ∧
    CharacterMetadata.EMPTY.setEntity (some "x")
        (CharacterMetadata.applyEntity CharacterMetadata.EMPTY (some "x") Heap.init).2 =
      (⟨2, ⟨none, some (some "x")⟩, true⟩,
        ⟨(CharacterMetadata.applyEntity CharacterMetadata.EMPTY (some "x") Heap.init).2.pool,
          3⟩) ∧
    (CharacterMetadata.mk 2 ⟨none, some (some "x")⟩ true).getEntity = some "x" ∧
    (CharacterMetadata.applyEntity ⟨2, ⟨none, some (some "x")⟩, true⟩ (some "x")
      ⟨(CharacterMetadata.applyEntity CharacterMetadata.EMPTY (some "x") Heap.init).2.pool,
        3⟩).1 = ⟨1, ⟨none, some (some "x")⟩, true⟩ ∧
    (CharacterMetadata.applyEntity ⟨2, ⟨none, some (some "x")⟩, true⟩ (some "x")
      ⟨(CharacterMetadata.applyEntity CharacterMetadata.EMPTY (some "x") Heap.init).2.pool,
        3⟩).1 ≠ ⟨2, ⟨none, some (some "x")⟩, true⟩ := by
  refine ⟨by decide, by decide, by decide, by decide, by decide, by decide, by decide,
    by decide⟩

/-! ## applyStyle and removeStyle against the pool -/

/-- C11 does not hold of the code.  From the state after module load,
`b = applyStyle(EMPTY, 'BOLD')` has the style BOLD, and `removeStyle(b, 'BOLD')` returns an
instance with the empty style and the entity `null` that is not `EMPTY`, although `EMPTY` is
what `create` returns there for the empty style and the entity `null`; and `create` of the
object literal with the style BOLD returns there an instance that is not `b`.  The pool holds
several instances of one (style, entity) pair. -/
theorem removeStyle_applyStyle_other_instance :
    (CharacterMetadata.applyStyle CharacterMetadata.EMPTY "BOLD" Heap.init).1.getStyle =
      ["BOLD"] ∧
    (CharacterMetadata.removeStyle
      (CharacterMetadata.applyStyle CharacterMetadata.EMPTY "BOLD" Heap.init).1 "BOLD"
      (CharacterMetadata.applyStyle CharacterMetadata.EMPTY "BOLD" Heap.init).2).1.getStyle =
      [] ∧
    (CharacterMetadata.removeStyle
      (CharacterMetadata.applyStyle CharacterMetadata.EMPTY "BOLD" Heap.init).1 "BOLD"
      (CharacterMetadata.applyStyle CharacterMetadata.EMPTY "BOLD" Heap.init).2).1.getEntity =
      none ∧
    (CharacterMetadata.removeStyle
      (CharacterMetadata.applyStyle CharacterMetadata.EMPTY "BOLD" Heap.init).1 "BOLD"
      (CharacterMetadata.applyStyle CharacterMetadata.EMPTY "BOLD" Heap.init).2).1 ≠
      CharacterMetadata.EMPTY ∧
    (CharacterMetadata.create (some (.plain (some []) (some none)))
      (CharacterMetadata.removeStyle
        (CharacterMetadata.applyStyle CharacterMetadata.EMPTY "BOLD" Heap.init).1 "BOLD"
        (CharacterMetadata.applyStyle CharacterMetadata.EMPTY "BOLD" Heap.init).2).2).1 =
      CharacterMetadata.EMPTY ∧
    (CharacterMetadata.create (some (.plain (some ["BOLD"]) none))
      (CharacterMetadata.applyStyle CharacterMetadata.EMPTY "BOLD" Heap.init).2).1 ≠
      (CharacterMetadata.applyStyle CharacterMetadata.EMPTY "BOLD" Heap.init).1 := by
  refine ⟨by decide, by decide, by decide, by decide, by decide, by decide⟩

/-! ## createFromBlockArray and createFromText -/

theorem BlockMap.set_ne_nil (m : BlockMap) (k : String) (b : ContentBlock) :
    m.set k b ≠ [] := by
  cases m with
  | nil => simp [BlockMap.set]
  | cons e rest =>
    obtain ⟨k0, w⟩ := e
    by_cases hk : k0 = k <;> simp [BlockMap.set, hk]

theorem BlockMap.mem_set (m : BlockMap) (k : String) (b : ContentBlock)
    (e : String × ContentBlock) (he : e ∈ m.set k b) : e ∈ m ∨ e = (k, b) := by
  induction m with
  | nil =>
    simp only [BlockMap.set, List.mem_singleton] at he
    exact Or.inr he
  | cons e0 rest ih =>
    obtain ⟨k0, w⟩ := e0
    by_cases hk : k0 = k
    · subst hk
      simp only [BlockMap.set, if_true, List.mem_cons] at he
      rcases he with he | he
      · exact Or.inr he
      · exact Or.inl (List.mem_cons_of_mem _ he)
    · simp only [BlockMap.set, hk, if_false, List.mem_cons] at he
      rcases he with he | he
      · exact Or.inl (he ▸ List.mem_cons_self _ _)
      · rcases ih he with h1 | h1
        · exact Or.inl (List.mem_cons_of_mem _ h1)
        · exact Or.inr h1

/-- The fold of `createFromArray` keeps a block map non-empty and keeps every block under its
own key. -/
theorem BlockMapBuilder.foldl_invariant (blocks : List ContentBlock) :
    ∀ m : BlockMap, (∀ e ∈ m, e.2.key = e.1) →
      (∀ e ∈ blocks.foldl (fun m b => BlockMap.set m b.key b) m, e.2.key = e.1) ∧
      ((m ≠ [] ∨ blocks ≠ []) → blocks.foldl (fun m b => BlockMap.set m b.key b) m ≠ []) := by
  induction blocks with
  | nil =>
    intro m hm
    refine ⟨hm, ?_⟩
    rintro (h1 | h1)
    · exact h1
    · exact absurd rfl h1
  | cons b rest ih =>
    intro m hm
    have hm1 : ∀ e ∈ BlockMap.set m b.key b, e.2.key = e.1 := by
      intro e he
      rcases BlockMap.mem_set m b.key b e he with h1 | h1
      · exact hm e h1
      · rw [h1]
    obtain ⟨h1, h2⟩ := ih (BlockMap.set m b.key b) hm1
    exact ⟨h1, fun _ => h2 (Or.inl (BlockMap.set_ne_nil m b.key b))⟩

/-- The block map of a non-empty sequence of blocks starts with a block stored under its own
key. -/
theorem BlockMapBuilder.createFromArray_cons (blocks : List ContentBlock) (hne : blocks ≠ []) :
    ∃ first rest, BlockMapBuilder.createFromArray blocks = (first.key, first) :: rest := by
  obtain ⟨h1, h2⟩ := BlockMapBuilder.foldl_invariant blocks [] (fun e he => by simp at he)
  have hne1 := h2 (Or.inr hne)
  cases hm : BlockMapBuilder.createFromArray blocks with
  | nil => exact absurd hm hne1
  | cons e rest =>
    obtain ⟨k, first⟩ := e
    have hk : first.key = k := by
      have := h1 (k, first) (by
        show (k, first) ∈ BlockMapBuilder.createFromArray blocks
        rw [hm]
        exact List.mem_cons_self _ _)
      exact this
    exact ⟨first, rest, by rw [← hk]⟩

/-- The static method `createFromBlockArray` on an array or a wrapper, by cases on the block
map it builds. -/
theorem createFromBlockArray_of_cons (arg : BlocksArg) (blocks : List ContentBlock)
    (em : Option EntityMap) (harg : arg = .array blocks ∨ arg = .wrapper blocks)
    (k : String) (first : ContentBlock) (rest : BlockMap)
    (hm : BlockMapBuilder.createFromArray blocks = (k, first) :: rest) :
    ContentState.createFromBlockArray arg em =
      ⟨some (em.getD EntityMap.DraftEntity), some ((k, first) :: rest),
        some (SelectionState.createEmpty first.key),
        some (SelectionState.createEmpty first.key)⟩ := by
  rcases harg with rfl | rfl <;> simp [ContentState.createFromBlockArray, hm]

theorem createFromBlockArray_invariant (arg : BlocksArg) (blocks : List ContentBlock)
    (em : Option EntityMap) (harg : arg = .array blocks ∨ arg = .wrapper blocks)
    (hne : blocks ≠ []) : (ContentState.createFromBlockArray arg em).NonEmptyInvariant := by
  obtain ⟨first, rest, hm⟩ := BlockMapBuilder.createFromArray_cons blocks hne
  rw [createFromBlockArray_of_cons arg blocks em harg first.key first rest hm]
  refine ⟨_, _, _, rfl, by simp, rfl, rfl, ?_, ?_, ?_, ?_⟩ <;>
    simp [SelectionState.createEmpty, BlockMap.keySeq]

theorem jsSplitLineBreaks.go_ne_nil (t : JSString) :
    ∀ cur : JSString, jsSplitLineBreaks.go cur t ≠ [] := by
  induction t with
  | nil =>
    intro cur
    simp [jsSplitLineBreaks.go]
  | cons c cs ih =>
    intro cur
    unfold jsSplitLineBreaks.go
    by_cases h1 : c = '\r'
    · simp only [h1, if_true]
      cases cs with
      | nil => simp
      | cons d ds => by_cases h2 : d = '\n' <;> simp [h2]
    · simp only [h1, if_false]
      by_cases h2 : c = '\n'
      · simp [h2]
      · simp only [h2, if_false]
        exact ih (cur ++ [c])

/-- The call `text.split(delimiter)` returns at least one segment for the default expression
and for a string delimiter, unless the empty text is split on the empty string. -/
theorem splitBy_ne_nil (t : JSString) :
    splitBy t Delimiter.lineBreaks ≠ [] ∧
    ∀ d : JSString, (d ≠ [] ∨ t ≠ []) → splitBy t (Delimiter.string d) ≠ [] := by
  refine ⟨jsSplitLineBreaks.go_ne_nil t [], ?_⟩
  intro d h
  cases d with
  | nil =>
    rcases h with h | h
    · exact absurd rfl h
    · simpa [splitBy, jsSplit] using h
  | cons c cs =>
    exact (jsSplit.go_intercalate (c :: cs) (by simp) t.length t [] rfl).1

theorem createFromText.blocks_ne_nil (gen : Nat → String) (strips : Char → Bool) (n : Nat)
    (strings : List JSString) (h : strings ≠ []) :
    createFromText.blocks gen strips n strings ≠ [] := by
  cases strings with
  | nil => exact absurd rfl h
  | cons a rest => simp [createFromText.blocks]

/-- C12, as amended. The content state `createFromBlockArray` returns for a non-empty sequence
of blocks (array or wrapper), and the content state `createFromText` returns whenever
`text.split(delimiter)` gives at least one segment, has a non-empty block map, and its
selectionBefore and selectionAfter name a key present in the block map.  The split gives at
least one segment for the default delimiter, and for every string delimiter unless the empty
text is split on the empty string. -/
theorem create_nonEmpty_invariant (blocks : List ContentBlock) (em : Option EntityMap)
    (gen : Nat → String) (strips : Char → Bool) (t : JSString) (delimiter : Option Delimiter)
    (hne : blocks ≠ []) (hsplit : splitBy t (delimiter.getD Delimiter.lineBreaks) ≠ []) :
    ((ContentState.createFromBlockArray (.array blocks) em).NonEmptyInvariant ∧
      (ContentState.createFromBlockArray (.wrapper blocks) em).NonEmptyInvariant ∧
      (ContentState.createFromText gen strips t delimiter).NonEmptyInvariant) ∧
    (∀ t1 : JSString, splitBy t1 ((none : Option Delimiter).getD Delimiter.lineBreaks) ≠ [] ∧
      splitBy t1 Delimiter.lineBreaks ≠ [] ∧
      ∀ d : JSString, (d ≠ [] ∨ t1 ≠ []) → splitBy t1 (Delimiter.string d) ≠ []) :=
  ⟨⟨createFromBlockArray_invariant _ blocks em (Or.inl rfl) hne,
      createFromBlockArray_invariant _ blocks em (Or.inr rfl) hne,
      createFromBlockArray_invariant _ _ none (Or.inl rfl)
        (createFromText.blocks_ne_nil gen strips 0 _ hsplit)⟩,
    fun t1 => ⟨(splitBy_ne_nil t1).1, (splitBy_ne_nil t1).1, (splitBy_ne_nil t1).2⟩⟩

/-- C12, as amended, at a concrete input: the two sample blocks, and the empty text with the
default delimiter. -/
theorem create_nonEmpty_invariant_witness :
    ((ContentState.createFromBlockArray
        (.array [sampleBlock "k1" ['a', 'b'], sampleBlock "k2" ['c', 'd', 'e']])
        none).NonEmptyInvariant ∧
      (ContentState.createFromBlockArray
        (.wrapper [sampleBlock "k1" ['a', 'b'], sampleBlock "k2" ['c', 'd', 'e']])
        none).NonEmptyInvariant ∧
      (ContentState.createFromText sampleKey (fun c => c == '\r') []
        none).NonEmptyInvariant) ∧
    (∀ t1 : JSString, splitBy t1 ((none : Option Delimiter).getD Delimiter.lineBreaks) ≠ [] ∧
      splitBy t1 Delimiter.lineBreaks ≠ [] ∧
      ∀ d : JSString, (d ≠ [] ∨ t1 ≠ []) → splitBy t1 (Delimiter.string d) ≠ []) :=
  create_nonEmpty_invariant [sampleBlock "k1" ['a', 'b'], sampleBlock "k2" ['c', 'd', 'e']]
    none sampleKey (fun c => c == '\r') [] none (by decide)
    (jsSplitLineBreaks.go_ne_nil [] [])

/-- C12 fails as stated: `createFromBlockArray([])` returns a content state whose block map is
empty and whose selections are the default selection, with the empty string as key; so does
`createFromText('', '')`, and so does `createFromText` of the empty text with the empty
regular expression, which splits a text into its code units and the empty text into no
segment. -/
theorem createFromBlockArray_empty_counterexample :
    (ContentState.createFromBlockArray (.array []) none).blockMap = some [] ∧
    (ContentState.createFromBlockArray (.array []) none).selectionBefore =
      some ⟨"", 0, "", 0, false, false⟩ ∧
    (ContentState.createFromBlockArray (.array []) none).selectionAfter =
      some ⟨"", 0, "", 0, false, false⟩ ∧
    ¬ (ContentState.createFromBlockArray (.array []) none).NonEmptyInvariant ∧
    (ContentState.createFromText sampleKey (fun _ => false) []
      (some (.string []))).blockMap = some [] ∧
    (ContentState.createFromText sampleKey (fun _ => false) []
      (some (.regExp (fun t => t.map (fun c => [c]))))).blockMap = some [] := by
  refine ⟨by decide, by decide, by decide, ?_, by decide, by decide⟩
  rintro ⟨m, sb, sa, hm, hne, _⟩
  have hnil : (ContentState.createFromBlockArray (.array []) none).blockMap = some [] := by
    decide
  rw [hnil] at hm
  exact hne (Option.some.inj hm).symm

/-- The block `createFromText` builds for the segment at index `i`, counted from the `n`-th
call of the key generator. -/
theorem createFromText.blocks_getElem? (gen : Nat → String) (strips : Char → Bool)
    (strings : List JSString) : ∀ (n i : Nat),
    (createFromText.blocks gen strips n strings)[i]? =
      (strings[i]?).map (fun seg =>
        (⟨gen (n + i), "unstyled", sanitizeDraftText strips seg,
          List.replicate (sanitizeDraftText strips seg).length CharacterMetadata.EMPTY,
          0⟩ : ContentBlock)) := by
  induction strings with
  | nil => intro n i; simp [createFromText.blocks]
  | cons a rest ih =>
    intro n i
    cases i with
    | zero => simp [createFromText.blocks]
    | succ j =>
      simp only [createFromText.blocks, List.getElem?_cons_succ]
      rw [ih (n + 1) j]
      have harith : n + 1 + j = n + (j + 1) := by omega
      rw [harith]

theorem createFromText.blocks_length (gen : Nat → String) (strips : Char → Bool)
    (strings : List JSString) : ∀ n : Nat,
    (createFromText.blocks gen strips n strings).length = strings.length := by
  induction strings with
  | nil => intro n; rfl
  | cons a rest ih => intro n; simp [createFromText.blocks, ih (n + 1)]

/-- C13. For every text t and delimiter d (a string, or the default regular expression), with
a key generator that does not repeat a key, `createFromText(t, d)` has as many blocks as t
split on d has segments, and the block at the place of a segment has the type unstyled, the
sanitized segment as text, and a characterList as long as its text whose every element is
`CharacterMetadata.EMPTY`. -/
theorem createFromText_blocks_shape (gen : Nat → String) (strips : Char → Bool)
    (t : JSString) (delimiter : Option Delimiter) (hgen : Function.Injective gen) :
    ∃ m, (ContentState.createFromText gen strips t delimiter).blockMap = some m ∧
      m.length = (splitBy t (delimiter.getD Delimiter.lineBreaks)).length ∧
      ∀ (i : Nat) (seg : JSString),
        (splitBy t (delimiter.getD Delimiter.lineBreaks))[i]? = some seg →
        ∃ b, m[i]? = some (gen i, b) ∧ b.key = gen i ∧ b.type = "unstyled" ∧
          b.text = sanitizeDraftText strips seg ∧
          b.characterList.length = b.text.length ∧
          ∀ c ∈ b.characterList, c = CharacterMetadata.EMPTY := by
  refine ⟨_, createFromText_blockMap gen strips t delimiter hgen, ?_, ?_⟩
  · simp [createFromText.blocks_length]
  · intro i seg hseg
    refine ⟨⟨gen i, "unstyled", sanitizeDraftText strips seg,
      List.replicate (sanitizeDraftText strips seg).length CharacterMetadata.EMPTY, 0⟩,
      ?_, rfl, rfl, rfl, by simp, ?_⟩
    · rw [List.getElem?_map, createFromText.blocks_getElem?, hseg]
      simp
    · intro c hc
      exact (List.mem_replicate.mp hc).2

/-- C13 at a concrete input: the text a, newline, b with the default delimiter. -/
theorem createFromText_blocks_shape_witness :
    ∃ m, (ContentState.createFromText sampleKey (fun c => c == '\r') ['a', '\n', 'b']
        none).blockMap = some m ∧
      m.length = (splitBy ['a', '\n', 'b']
        ((none : Option Delimiter).getD Delimiter.lineBreaks)).length ∧
      ∀ (i : Nat) (seg : JSString),
        (splitBy ['a', '\n', 'b']
          ((none : Option Delimiter).getD Delimiter.lineBreaks))[i]? = some seg →
        ∃ b, m[i]? = some (sampleKey i, b) ∧ b.key = sampleKey i ∧ b.type = "unstyled" ∧
          b.text = sanitizeDraftText (fun c => c == '\r') seg ∧
          b.characterList.length = b.text.length ∧
          ∀ c ∈ b.characterList, c = CharacterMetadata.EMPTY :=
  createFromText_blocks_shape sampleKey (fun c => c == '\r') ['a', '\n', 'b'] none
    sampleKey_injective

/-- C14. For a non-empty sequence of blocks with distinct keys, given as an array or as a
wrapper, `createFromBlockArray` returns a content state whose blocks are the given blocks in
the given order, each under its key, and whose selectionBefore and selectionAfter are the
same selection, with anchor and focus at offset 0 of the first block. -/
theorem createFromBlockArray_blocks_selection (arg : BlocksArg) (first : ContentBlock)
    (rest : List ContentBlock) (em : Option EntityMap)
    (harg : arg = .array (first :: rest) ∨ arg = .wrapper (first :: rest))
    (hnd : ((first :: rest).map (fun b => b.key)).Nodup) :
    ∃ m sel, (ContentState.createFromBlockArray arg em).blockMap = some m ∧
      m.map Prod.snd = first :: rest ∧
      BlockMap.keySeq m = (first :: rest).map (fun b => b.key) ∧
      (ContentState.createFromBlockArray arg em).selectionBefore = some sel ∧
      (ContentState.createFromBlockArray arg em).selectionAfter = some sel ∧
      sel.anchorKey = first.key ∧ sel.focusKey = first.key ∧
      sel.anchorOffset = 0 ∧ sel.focusOffset = 0 := by
  have hm := BlockMapBuilder.createFromArray_of_nodup (first :: rest) hnd
  simp only [List.map_cons] at hm
  rw [createFromBlockArray_of_cons arg (first :: rest) em harg first.key first _ hm]
  refine ⟨_, _, rfl, ?_, ?_, rfl, rfl, rfl, rfl, rfl, rfl⟩
  · simp [List.map_map, Function.comp_def]
  · simp [BlockMap.keySeq, List.map_map, Function.comp_def]

/-- C14 at a concrete input: the two sample blocks in a wrapper. -/
theorem createFromBlockArray_blocks_selection_witness :
    ∃ m sel,
      (ContentState.createFromBlockArray
        (.wrapper [sampleBlock "k1" ['a', 'b'], sampleBlock "k2" ['c', 'd', 'e']])
        none).blockMap = some m ∧
      m.map Prod.snd = [sampleBlock "k1" ['a', 'b'], sampleBlock "k2" ['c', 'd', 'e']] ∧
      BlockMap.keySeq m =
        [sampleBlock "k1" ['a', 'b'], sampleBlock "k2" ['c', 'd', 'e']].map (fun b => b.key) ∧
      (ContentState.createFromBlockArray
        (.wrapper [sampleBlock "k1" ['a', 'b'], sampleBlock "k2" ['c', 'd', 'e']])
        none).selectionBefore = some sel ∧
      (ContentState.createFromBlockArray
        (.wrapper [sampleBlock "k1" ['a', 'b'], sampleBlock "k2" ['c', 'd', 'e']])
        none).selectionAfter = some sel ∧
      sel.anchorKey = (sampleBlock "k1" ['a', 'b']).key ∧
      sel.focusKey = (sampleBlock "k1" ['a', 'b']).key ∧
      sel.anchorOffset = 0 ∧ sel.focusOffset = 0 :=
  createFromBlockArray_blocks_selection _ (sampleBlock "k1" ['a', 'b'])
    [sampleBlock "k2" ['c', 'd', 'e']] none (Or.inr rfl) (by decide)

/-! ## hasText, getFirstBlock and getLastBlock -/

/-- C15. For a content state with a non-empty block map, `hasText()` returns, and it returns
true if and only if the block map has more than one block or its sole block has a non-empty
text. -/
theorem hasText_iff (cs : ContentState) (m : BlockMap) (hm : cs.blockMap = some m)
    (hne : m ≠ []) :
    ∃ r, cs.hasText = .ok r ∧
      (r = true ↔ (1 < m.length ∨ ∃ e, m = [e] ∧ e.2.text ≠ [])) := by
  cases m with
  | nil => exact absurd rfl hne
  | cons e rest =>
    cases rest with
    | nil =>
      refine ⟨decide (e.2.text.length > 0), ?_, ?_⟩
      · simp [ContentState.hasText, ContentState.getFirstBlock, ContentState.getBlockMap, hm,
          ContentBlock.getLength]
      · simp [List.length_pos]
    | cons e2 rest2 =>
      refine ⟨true, ?_, ?_⟩
      · simp [ContentState.hasText, ContentState.getBlockMap, hm]
      · simp

/-- C15 at a concrete input: the content state of the two blocks k1 and k2. -/
theorem hasText_iff_witness :
    ∃ r, sampleContent.hasText = .ok r ∧
      (r = true ↔ (1 < sampleBlockMap.length ∨ ∃ e, sampleBlockMap = [e] ∧ e.2.text ≠ [])) :=
  hasText_iff sampleContent sampleBlockMap (by decide) (by decide)

/-- C16. `getFirstBlock()` fails if and only if the block map is missing or empty, and so does
`getLastBlock()`; with a non-empty block map they return the block at the first and at the
last index of the block map, which is the same block when there is exactly one. -/
theorem getFirstBlock_getLastBlock_fail_iff (cs : ContentState) :
    ((∃ err, cs.getFirstBlock = .error err) ↔ (cs.blockMap = none ∨ cs.blockMap = some [])) ∧
    ((∃ err, cs.getLastBlock = .error err) ↔ (cs.blockMap = none ∨ cs.blockMap = some [])) ∧
    (∀ (m : BlockMap) (e : String × ContentBlock), cs.blockMap = some m → m[0]? = some e →
      cs.getFirstBlock = .ok e.2) ∧
    (∀ (m : BlockMap) (e : String × ContentBlock), cs.blockMap = some m →
      m[m.length - 1]? = some e → cs.getLastBlock = .ok e.2) ∧
    (∀ e : String × ContentBlock, cs.blockMap = some [e] →
      cs.getFirstBlock = .ok e.2 ∧ cs.getLastBlock = .ok e.2) := by
  refine ⟨?_, ?_, ?_, ?_, ?_⟩
  · cases hm : cs.blockMap with
    | none => simp [ContentState.getFirstBlock, ContentState.getBlockMap, hm]
    | some m =>
      cases m with
      | nil => simp [ContentState.getFirstBlock, ContentState.getBlockMap, hm]
      | cons e rest => simp [ContentState.getFirstBlock, ContentState.getBlockMap, hm]
  · cases hm : cs.blockMap with
    | none => simp [ContentState.getLastBlock, ContentState.getBlockMap, hm]
    | some m =>
      cases hl : m.getLast? with
      | none =>
        have hnil : m = [] := List.getLast?_eq_none_iff.mp hl
        simp [ContentState.getLastBlock, ContentState.getBlockMap, hm, hl, hnil]
      | some e =>
        have hne : m ≠ [] := by
          intro hnil
          rw [hnil] at hl
          simp at hl
        simp [ContentState.getLastBlock, ContentState.getBlockMap, hm, hl, hne]
  · intro m e hm he
    rw [← List.head?_eq_getElem?] at he
    simp [ContentState.getFirstBlock, ContentState.getBlockMap, hm, he]
  · intro m e hm he
    rw [← List.getLast?_eq_getElem?] at he
    simp [ContentState.getLastBlock, ContentState.getBlockMap, hm, he]
  · intro e hm
    simp [ContentState.getFirstBlock, ContentState.getLastBlock, ContentState.getBlockMap, hm]

/-- C16 at concrete inputs: the first and the last block of the content state of the blocks k1
and k2, and the failure of `getFirstBlock` on a content state without block map. -/
theorem getFirstBlock_getLastBlock_fail_iff_witness :
    sampleContent.getFirstBlock = .ok (sampleBlock "k1" ['a', 'b']) ∧
    sampleContent.getLastBlock = .ok (sampleBlock "k2" ['c', 'd', 'e']) ∧
    ∃ err, (ContentState.mk none none none none).getFirstBlock = .error err :=
  ⟨(getFirstBlock_getLastBlock_fail_iff sampleContent).2.2.1 sampleBlockMap
      ("k1", sampleBlock "k1" ['a', 'b']) (by decide) (by decide),
    (getFirstBlock_getLastBlock_fail_iff sampleContent).2.2.2.1 sampleBlockMap
      ("k2", sampleBlock "k2" ['c', 'd', 'e']) (by decide) (by decide),
    (getFirstBlock_getLastBlock_fail_iff (ContentState.mk none none none none)).1.mpr
      (Or.inl rfl)⟩

/-! ## applyEntityToContentBlock outside its precondition -/

theorem applyEntityToContentBlock.loop_fail (k : Option String) (e s : Int)
    (cl : List CharacterMetadata) (h : Heap) (hse : s < e) (hs : 0 ≤ s)
    (hc : cl[s.toNat]? = none) :
    applyEntityToContentBlock.loop k e s cl h = .error .nullthrows := by
  rw [applyEntityToContentBlock.loop, if_pos hse, ImmList.get_of_nonneg cl s hs, hc]

/-- The loop from a non-negative `s` to an `e` beyond the end of the list fails at the first
index that is not in the list. -/
theorem applyEntityToContentBlock.loop_overrun (k : Option String) (e : Int) (n : Nat) :
    ∀ (s : Int) (cl : List CharacterMetadata) (h : Heap), (e - s).toNat = n → 0 ≤ s → s < e →
      (cl.length : Int) < e →
      applyEntityToContentBlock.loop k e s cl h = .error .nullthrows := by
  induction n with
  | zero =>
    intro s cl h hn hs hse _
    omega
  | succ n ih =>
    intro s cl h hn hs hse he
    by_cases hin : s.toNat < cl.length
    · rw [applyEntityToContentBlock.loop_step k e s cl h cl[s.toNat] hse hs
        (List.getElem?_eq_getElem hin)]
      exact ih (s + 1) _ _ (by omega) (by omega) (by omega) (by simpa using he)
    · exact applyEntityToContentBlock.loop_fail k e s cl h hse hs
        (List.getElem?_eq_none (by omega))

/-- C17, as amended. For a block whose characterList has length N: with 0 <= start < end and
end > N, `applyEntityToContentBlock` fails (the `nullthrows` on the first index outside the
list) instead of returning a block; with start >= end it returns the block as it is, whatever
the two numbers are. -/
theorem applyEntityToContentBlock_out_of_range (b : ContentBlock) (s e : Int)
    (k : Option String) (h : Heap) :
    (0 ≤ s → s < e → (b.characterList.length : Int) < e →
      applyEntityToContentBlock b s e k h = .error .nullthrows) ∧
    (e ≤ s → applyEntityToContentBlock b s e k h = .ok (b, h)) := by
  constructor
  · intro hs hse he
    simp [applyEntityToContentBlock,
      applyEntityToContentBlock.loop_overrun k e (e - s).toNat s b.characterList h rfl hs hse he]
  · intro hes
    simp [applyEntityToContentBlock,
      applyEntityToContentBlock.loop_done k e s b.characterList h (by omega)]

/-- C17, as amended, at concrete inputs: on a block of two characters the range [1, 3) fails,
and the reversed range from 2 to 1 returns the block. -/
theorem applyEntityToContentBlock_out_of_range_witness :
    applyEntityToContentBlock (sampleBlock "k1" ['a', 'b']) 1 3 (some "7") Heap.init =
      .error .nullthrows ∧
    applyEntityToContentBlock (sampleBlock "k1" ['a', 'b']) 2 1 (some "7") Heap.init =
      .ok (sampleBlock "k1" ['a', 'b'], Heap.init) :=
  ⟨(applyEntityToContentBlock_out_of_range (sampleBlock "k1" ['a', 'b']) 1 3 (some "7")
      Heap.init).1 (by decide) (by decide) (by decide),
    (applyEntityToContentBlock_out_of_range (sampleBlock "k1" ['a', 'b']) 2 1 (some "7")
      Heap.init).2 (by decide)⟩

/-- C17 fails as stated: on a block of two characters, start = 5 and end = 3 violate
0 <= start <= end <= length, and so do start = end = 9, yet both calls return the block
unchanged instead of failing. -/
theorem applyEntityToContentBlock_no_failure_counterexample :
    ¬ ((0 : Int) ≤ 5 ∧ (5 : Int) ≤ 3 ∧
      (3 : Int) ≤ ((sampleBlock "k1" ['a', 'b']).text.length : Int)) ∧
    applyEntityToContentBlock (sampleBlock "k1" ['a', 'b']) 5 3 (some "7") Heap.init =
      .ok (sampleBlock "k1" ['a', 'b'], Heap.init) ∧
    ¬ ((0 : Int) ≤ 9 ∧ (9 : Int) ≤ 9 ∧
      (9 : Int) ≤ ((sampleBlock "k1" ['a', 'b']).text.length : Int)) ∧
    applyEntityToContentBlock (sampleBlock "k1" ['a', 'b']) 9 9 (some "7") Heap.init =
      .ok (sampleBlock "k1" ['a', 'b'], Heap.init) := by
  refine ⟨by decide, ?_, by decide, ?_⟩
  · simp [applyEntityToContentBlock, applyEntityToContentBlock.loop_done]
  · simp [applyEntityToContentBlock, applyEntityToContentBlock.loop_done]

/-- A negative start is not refused either: Immutable counts a negative index from the end of
the list, so the range from -1 to 0 on a block of two characters sets the entity of the last
character. -/
theorem applyEntityToContentBlock_negative_start :
    applyEntityToContentBlock (sampleBlock "k1" ['a', 'b']) (-1) 0 (some "7") Heap.init =
      .ok (⟨"k1", "unstyled", ['a', 'b'],
          [CharacterMetadata.EMPTY, ⟨1, ⟨none, some (some "7")⟩, true⟩], 0⟩,
        ⟨[(defaultRecord, CharacterMetadata.EMPTY),
            (.record ⟨none, some (some "7")⟩ true, ⟨1, ⟨none, some (some "7")⟩, true⟩)],
          2⟩) := by
  have hget : ImmList.get (sampleBlock "k1" ['a', 'b']).characterList (-1) =
      some CharacterMetadata.EMPTY := by decide
  unfold applyEntityToContentBlock
  rw [applyEntityToContentBlock.loop, if_pos (by decide), hget]
  simp only
  rw [applyEntityToContentBlock.loop_done _ _ _ _ _ (by decide)]
  decide

/-! ## moveSelectionBackward: frame and validity of the focus -/

theorem moveSelectionBackward_of_le (es : EditorState) (D : Int)
    (hD : D ≤ es.selection.getStartOffset) :
    moveSelectionBackward es D =
      .ok (es.selection.merge es.selection.getStartKey (es.selection.getStartOffset - D)
        true) := by
  simp [moveSelectionBackward, not_lt.mpr hD]

theorem moveSelectionBackward_of_no_key_before (es : EditorState) (D : Int)
    (hD : D > es.selection.getStartOffset)
    (hkey : es.currentContent.getKeyBefore es.selection.getStartKey = .ok none) :
    moveSelectionBackward es D = .ok (es.selection.merge es.selection.getStartKey 0 true) := by
  simp [moveSelectionBackward, hD, hkey]

theorem moveSelectionBackward_of_key_before (es : EditorState) (D : Int) (kb : String)
    (bb : ContentBlock) (hD : D > es.selection.getStartOffset)
    (hkey : es.currentContent.getKeyBefore es.selection.getStartKey = .ok (some kb))
    (hblock : es.currentContent.getBlockForKey kb = .ok (some bb)) :
    moveSelectionBackward es D = .ok (es.selection.merge kb (bb.text.length : Int) true) := by
  simp [moveSelectionBackward, hD, hkey, hblock]

theorem BlockMap.get_of_mem_keySeq (m : BlockMap) (k : String) (hk : k ∈ BlockMap.keySeq m) :
    ∃ b, m.get k = some b := by
  induction m with
  | nil => simp [BlockMap.keySeq] at hk
  | cons e rest ih =>
    obtain ⟨k0, b0⟩ := e
    by_cases h0 : k0 = k
    · exact ⟨b0, by simp [BlockMap.get, h0]⟩
    · have hrest : k ∈ BlockMap.keySeq rest := by
        simp only [BlockMap.keySeq, List.map_cons, List.mem_cons] at hk
        rcases hk with hk | hk
        · exact absurd hk.symm h0
        · exact hk
      obtain ⟨b, hb⟩ := ih hrest
      exact ⟨b, by simp [BlockMap.get, h0, hb]⟩

/-- The key `getKeyBefore` returns is a key of the block map. -/
theorem getKeyBefore_mem (cs : ContentState) (m : BlockMap) (hm : cs.blockMap = some m)
    (k kb : String) (hkb : cs.getKeyBefore k = .ok (some kb)) : kb ∈ BlockMap.keySeq m := by
  simp only [ContentState.getKeyBefore, ContentState.getBlockMap, hm, Except.ok.injEq] at hkb
  have h1 := List.mem_of_mem_head? (Option.mem_def.mpr hkb)
  have h2 := List.mem_of_mem_drop h1
  have h3 := (List.dropWhile_sublist _).subset h2
  rw [BlockMap.keySeq_reverse] at h3
  exact List.mem_reverse.mp h3

/-- With a block map present, or with a distance that stays inside the block,
`moveSelectionBackward` returns a selection. -/
theorem moveSelectionBackward_returns (es : EditorState) (D : Int)
    (h : es.currentContent.blockMap ≠ none ∨ D ≤ es.selection.getStartOffset) :
    ∃ sel, moveSelectionBackward es D = .ok sel := by
  by_cases hD : D ≤ es.selection.getStartOffset
  · exact ⟨_, moveSelectionBackward_of_le es D hD⟩
  · have hD1 : D > es.selection.getStartOffset := not_le.mp hD
    rcases h with h | h
    · cases hm : es.currentContent.blockMap with
      | none => exact absurd hm h
      | some m =>
        cases hkey : (((skipUntil (fun v => v == es.selection.getStartKey)
            (BlockMap.keySeq m.reverse)).drop 1).head?) with
        | none =>
          exact ⟨_, moveSelectionBackward_of_no_key_before es D hD1 (by
            simp only [ContentState.getKeyBefore, ContentState.getBlockMap, hm, hkey])⟩
        | some kb =>
          have hkb : es.currentContent.getKeyBefore es.selection.getStartKey =
              .ok (some kb) := by
            simp only [ContentState.getKeyBefore, ContentState.getBlockMap, hm, hkey]
          obtain ⟨bb, hbb⟩ := BlockMap.get_of_mem_keySeq m kb
            (getKeyBefore_mem es.currentContent m hm _ kb hkb)
          exact ⟨_, moveSelectionBackward_of_key_before es D kb bb hD1 hkb (by
            simp [ContentState.getBlockForKey, ContentState.getBlockMap, hm, hbb])⟩
    · exact absurd h hD

/-- C18. For every editor state and every maxDistance, a selection `moveSelectionBackward`
returns has the anchorKey, the anchorOffset and the hasFocus of the input selection; and the
function does return a selection whenever the content has a block map or maxDistance does not
exceed the start offset. -/
theorem moveSelectionBackward_frame (es : EditorState) (D : Int) :
    (∀ sel, moveSelectionBackward es D = .ok sel →
      sel.anchorKey = es.selection.anchorKey ∧
      sel.anchorOffset = es.selection.anchorOffset ∧
      sel.hasFocus = es.selection.hasFocus) ∧
    ((es.currentContent.blockMap ≠ none ∨ D ≤ es.selection.getStartOffset) →
      ∃ sel, moveSelectionBackward es D = .ok sel) := by
  refine ⟨?_, moveSelectionBackward_returns es D⟩
  intro sel h
  unfold moveSelectionBackward at h
  simp only at h
  split at h
  · split at h
    · cases h
    · cases h
      exact ⟨rfl, rfl, rfl⟩
    · split at h
      · cases h
      · cases h
      · cases h
        exact ⟨rfl, rfl, rfl⟩
  · cases h
    exact ⟨rfl, rfl, rfl⟩

/-- C18 at a concrete input: a selection from offset 2 of k1 to offset 1 of k2, with focus,
moved back by 50 from its start. -/
theorem moveSelectionBackward_frame_witness :
    ∃ sel, moveSelectionBackward (sampleEditor ⟨"k1", 2, "k2", 1, false, true⟩) 50 = .ok sel ∧
      sel.anchorKey = "k1" ∧ sel.anchorOffset = 2 ∧ sel.hasFocus = true :=
  ⟨⟨"k1", 2, "k1", 0, true, true⟩, by decide,
    (moveSelectionBackward_frame (sampleEditor ⟨"k1", 2, "k2", 1, false, true⟩) 50).1
      ⟨"k1", 2, "k1", 0, true, true⟩ (by decide)⟩

/-- C20. For a content of distinct block keys and a selection whose start (key, O) names the
block at index i of the content with 0 <= O <= the length of its text, and a maxDistance
D >= 0, `moveSelectionBackward` returns a selection whose focusKey is the key of a block at
an index j of the content, with 0 <= focusOffset <= the length of that block's text, and the
new focus is not after the start: j < i, or j = i and focusOffset <= O. -/
theorem moveSelectionBackward_focus_valid (es : EditorState) (D : Int) (m : BlockMap)
    (i : Nat) (b : ContentBlock) (hm : es.currentContent.blockMap = some m)
    (hnd : (BlockMap.keySeq m).Nodup) (hstart : m[i]? = some (es.selection.getStartKey, b))
    (hO0 : 0 ≤ es.selection.getStartOffset)
    (hO : es.selection.getStartOffset ≤ (b.text.length : Int)) (hD0 : 0 ≤ D) :
    ∃ sel j bf, moveSelectionBackward es D = .ok sel ∧ m[j]? = some (sel.focusKey, bf) ∧
      0 ≤ sel.focusOffset ∧ sel.focusOffset ≤ (bf.text.length : Int) ∧
      (j < i ∨ (j = i ∧ sel.focusOffset ≤ es.selection.getStartOffset)) := by
  by_cases hD : D ≤ es.selection.getStartOffset
  · refine ⟨_, i, b, moveSelectionBackward_of_le es D hD, hstart, ?_, ?_, Or.inr ⟨rfl, ?_⟩⟩ <;>
      simp only [SelectionState.merge] <;> omega
  · have hD1 : D > es.selection.getStartOffset := not_le.mp hD
    have hk : (BlockMap.keySeq m)[i]? = some es.selection.getStartKey := by
      simp [BlockMap.keySeq, hstart]
    obtain ⟨hi, hkey⟩ := List.getElem?_eq_some_iff.mp hk
    have hbefore := getKeyBefore_of_index es.currentContent m hm hnd i hi
    rw [hkey] at hbefore
    cases i with
    | zero =>
      simp only [if_true] at hbefore
      refine ⟨_, 0, b, moveSelectionBackward_of_no_key_before es D hD1 hbefore, hstart, ?_, ?_,
        Or.inr ⟨rfl, ?_⟩⟩ <;> simp only [SelectionState.merge] <;> omega
    | succ i1 =>
      have hi1 : i1 < m.length := by
        have hlen : (BlockMap.keySeq m).length = m.length := by simp [BlockMap.keySeq]
        omega
      have hprev : m[i1]? = some (m[i1].1, m[i1].2) := List.getElem?_eq_getElem hi1
      have hk0 : (BlockMap.keySeq m)[i1]? = some m[i1].1 := by
        simp [BlockMap.keySeq, hprev]
      simp only [Nat.add_one_ne_zero, if_false, Nat.add_sub_cancel, hk0] at hbefore
      have hblock : es.currentContent.getBlockForKey m[i1].1 = .ok (some m[i1].2) := by
        simp [ContentState.getBlockForKey, ContentState.getBlockMap, hm,
          BlockMap.get_of_index m hnd i1 _ _ hprev]
      refine ⟨_, i1, m[i1].2,
        moveSelectionBackward_of_key_before es D _ _ hD1 hbefore hblock, hprev, ?_, ?_,
        Or.inl (Nat.lt_succ_self i1)⟩ <;> simp [SelectionState.merge]

/-- C20 at a concrete input: the caret at offset 1 of the block k2, moved back by 50. -/
theorem moveSelectionBackward_focus_valid_witness :
    ∃ sel j bf,
      moveSelectionBackward (sampleEditor ⟨"k2", 1, "k2", 1, false, true⟩) 50 = .ok sel ∧
      sampleBlockMap[j]? = some (sel.focusKey, bf) ∧
      0 ≤ sel.focusOffset ∧ sel.focusOffset ≤ (bf.text.length : Int) ∧
      (j < 1 ∨ (j = 1 ∧ sel.focusOffset ≤
        (SelectionState.mk "k2" 1 "k2" 1 false true).getStartOffset)) :=
  moveSelectionBackward_focus_valid (sampleEditor ⟨"k2", 1, "k2", 1, false, true⟩) 50
    sampleBlockMap 1 (sampleBlock "k2" ['c', 'd', 'e']) (by decide) (by decide) (by decide)
    (by decide) (by decide) (by decide)

/-! ## The order of the style tags -/

theorem OrderedSet.add_of_mem (S : DraftInlineStyle) (x : String) (h : x ∈ S) :
    OrderedSet.add S x = S := by
  simp [OrderedSet.add, h]

theorem OrderedSet.add_eq_self_iff (S : DraftInlineStyle) (x : String) :
    OrderedSet.add S x = S ↔ x ∈ S := by
  constructor
  · intro h
    by_contra hx
    simp [OrderedSet.add, hx] at h
  · exact OrderedSet.add_of_mem S x

theorem OrderedSet.add_add_comm (S : DraftInlineStyle) (a b : String)
    (h : a = b ∨ a ∈ S ∨ b ∈ S) :
    OrderedSet.add (OrderedSet.add S a) b = OrderedSet.add (OrderedSet.add S b) a := by
  rcases h with h | h | h
  · rw [h]
  · rw [OrderedSet.add_of_mem S a h,
      OrderedSet.add_of_mem _ a ((OrderedSet.mem_add S b a).mpr (Or.inl h))]
  · rw [OrderedSet.add_of_mem S b h,
      OrderedSet.add_of_mem _ b ((OrderedSet.mem_add S a b).mpr (Or.inl h))]

/-- Both calls of `set` in `applyStyle(applyStyle(r, a), b)` return the record they are called
on exactly when the map of `r` holds a style with both tags. -/
theorem OrderedSet.both_kept_iff (o : Option DraftInlineStyle) (a b : String) :
    (o = some (OrderedSet.add (o.getD EMPTY_SET) a) ∧
      OrderedSet.add (o.getD EMPTY_SET) a =
        OrderedSet.add (OrderedSet.add (o.getD EMPTY_SET) a) b) ↔
    (o = some (o.getD EMPTY_SET) ∧ a ∈ o.getD EMPTY_SET ∧ b ∈ o.getD EMPTY_SET) := by
  cases o with
  | none => simp
  | some T =>
    simp only [Option.getD_some, Option.some.injEq, true_and]
    constructor
    · rintro ⟨h1, h2⟩
      have ha : a ∈ T := (OrderedSet.add_eq_self_iff T a).mp h1.symm
      rw [OrderedSet.add_of_mem T a ha] at h2
      exact ⟨ha, (OrderedSet.add_eq_self_iff T b).mp h2.symm⟩
    · rintro ⟨ha, hb⟩
      rw [OrderedSet.add_of_mem T a ha, OrderedSet.add_of_mem T b hb]
      exact ⟨rfl, rfl⟩

/-- What `applyStyle(applyStyle(r, a), b)` returns from a reachable state, with the own
properties of the returned record. -/
theorem applyStyleTwice_spec (r : CharacterMetadata) (a b : String) {h : Heap}
    (hr : h.Reachable) :
    (applyStyleTwice r a b h).1.map =
      ⟨some (OrderedSet.add (OrderedSet.add r.getStyle a) b), r.map.entity⟩ ∧
    (applyStyleTwice r a b h).1.ownerID =
      (if r.map.style = some r.getStyle ∧ a ∈ r.getStyle ∧ b ∈ r.getStyle then r.ownerID
        else true) ∧
    (applyStyleTwice r a b h).2.Pooled (applyStyleTwice r a b h).1 ∧
    Heap.Steps h (applyStyleTwice r a b h).2 := by
  obtain ⟨hmap1, hown1, _, a4⟩ := applyStyle_result r a hr
  have hr1 : (CharacterMetadata.applyStyle r a h).2.Reachable := Heap.Steps.trans hr a4
  obtain ⟨b1, b2, b3, b4⟩ := applyStyle_result (CharacterMetadata.applyStyle r a h).1 b hr1
  have hst1 : (CharacterMetadata.applyStyle r a h).1.getStyle = OrderedSet.add r.getStyle a := by
    simp [CharacterMetadata.getStyle, hmap1]
  have hmapT : (applyStyleTwice r a b h).1.map =
      ⟨some (OrderedSet.add (CharacterMetadata.applyStyle r a h).1.getStyle b),
        (CharacterMetadata.applyStyle r a h).1.map.entity⟩ := b1
  have hownT : (applyStyleTwice r a b h).1.ownerID =
      (if (CharacterMetadata.applyStyle r a h).1.map.style =
          some (OrderedSet.add (CharacterMetadata.applyStyle r a h).1.getStyle b)
        then (CharacterMetadata.applyStyle r a h).1.ownerID else true) := b2
  rw [hst1, hmap1] at hmapT
  rw [hst1, hmap1, hown1] at hownT
  refine ⟨hmapT, ?_, b3, Heap.Steps.trans a4 b4⟩
  rw [hownT]
  have hiff := OrderedSet.both_kept_iff r.map.style a b
  simp only [Option.some.injEq]
  by_cases hkept : r.map.style = some r.getStyle ∧ a ∈ r.getStyle ∧ b ∈ r.getStyle
  · obtain ⟨k1, k2⟩ := hiff.mpr hkept
    have k2a : OrderedSet.add r.getStyle a =
        OrderedSet.add (OrderedSet.add r.getStyle a) b := k2
    have k1a : r.map.style = some (OrderedSet.add r.getStyle a) := k1
    rw [if_pos k2a, if_pos k1a, if_pos hkept]
  · rw [if_neg hkept]
    by_cases k2 : OrderedSet.add r.getStyle a =
        OrderedSet.add (OrderedSet.add r.getStyle a) b
    · rw [if_pos k2]
      by_cases k1 : r.map.style = some (OrderedSet.add r.getStyle a)
      · exact absurd (hiff.mp ⟨k1, k2⟩) hkept
      · rw [if_neg k1]
    · rw [if_neg k2]

/-- C19, as amended. From every reachable pool state, `applyStyle(applyStyle(r, a), b)` and
`applyStyle(applyStyle(r, b), a)` have the same entity and the same style tags; they are the
identical pooled instance when the two orders build the same ordered style set, that is when
a = b or one of the two tags is already in the style of r. -/
theorem applyStyle_order (r : CharacterMetadata) (a b : String) (h : Heap)
    (hr : h.Reachable) :
    (applyStyleTwice r b a (applyStyleTwice r a b h).2).1.getEntity =
      (applyStyleTwice r a b h).1.getEntity ∧
    (∀ t, t ∈ (applyStyleTwice r b a (applyStyleTwice r a b h).2).1.getStyle ↔
      t ∈ (applyStyleTwice r a b h).1.getStyle) ∧
    ((a = b ∨ a ∈ r.getStyle ∨ b ∈ r.getStyle) →
      (applyStyleTwice r b a (applyStyleTwice r a b h).2).1 = (applyStyleTwice r a b h).1) := by
  obtain ⟨x1, x2, x3, x4⟩ := applyStyleTwice_spec r a b hr
  have hr1 : (applyStyleTwice r a b h).2.Reachable := Heap.Steps.trans hr x4
  obtain ⟨y1, y2, y3, y4⟩ := applyStyleTwice_spec r b a hr1
  have hxs : (applyStyleTwice r a b h).1.getStyle =
      OrderedSet.add (OrderedSet.add r.getStyle a) b :=
    congrArg (fun m : RecordMap => m.style.getD EMPTY_SET) x1
  have hys : (applyStyleTwice r b a (applyStyleTwice r a b h).2).1.getStyle =
      OrderedSet.add (OrderedSet.add r.getStyle b) a :=
    congrArg (fun m : RecordMap => m.style.getD EMPTY_SET) y1
  have hxe : (applyStyleTwice r a b h).1.getEntity = r.getEntity := by
    rw [CharacterMetadata.getEntity, x1]; rfl
  have hye : (applyStyleTwice r b a (applyStyleTwice r a b h).2).1.getEntity = r.getEntity := by
    rw [CharacterMetadata.getEntity, y1]; rfl
  refine ⟨hye.trans hxe.symm, ?_, ?_⟩
  · intro t
    rw [hxs, hys, OrderedSet.mem_add, OrderedSet.mem_add, OrderedSet.mem_add,
      OrderedSet.mem_add]
    constructor
    · rintro ((h1 | h1) | h1)
      · exact Or.inl (Or.inl h1)
      · exact Or.inr h1
      · exact Or.inl (Or.inr h1)
    · rintro ((h1 | h1) | h1)
      · exact Or.inl (Or.inl h1)
      · exact Or.inr h1
      · exact Or.inl (Or.inr h1)
  · intro hab
    have hx := x3.of_steps y4
    have hmap : (applyStyleTwice r b a (applyStyleTwice r a b h).2).1.map =
        (applyStyleTwice r a b h).1.map := by
      rw [y1, x1, OrderedSet.add_add_comm r.getStyle a b hab]
    have hown : (applyStyleTwice r b a (applyStyleTwice r a b h).2).1.ownerID =
        (applyStyleTwice r a b h).1.ownerID := by
      rw [y2, x2]
      have hsym : (r.map.style = some r.getStyle ∧ b ∈ r.getStyle ∧ a ∈ r.getStyle) ↔
          (r.map.style = some r.getStyle ∧ a ∈ r.getStyle ∧ b ∈ r.getStyle) := by tauto
      simp only [hsym]
    unfold Heap.Pooled at hx y3
    rw [hmap, hown, hx] at y3
    exact (Option.some.inj y3).symm

/-- C19, as amended, at a concrete input: the tags BOLD and ITALIC applied to a record that
already has the style BOLD. -/
theorem applyStyle_order_witness :
    (applyStyleTwice ⟨9, ⟨some ["BOLD"], none⟩, false⟩ "ITALIC" "BOLD"
      (applyStyleTwice ⟨9, ⟨some ["BOLD"], none⟩, false⟩ "BOLD" "ITALIC"
        Heap.init).2).1.getEntity =
      (applyStyleTwice ⟨9, ⟨some ["BOLD"], none⟩, false⟩ "BOLD" "ITALIC"
        Heap.init).1.getEntity ∧
    (∀ t, t ∈ (applyStyleTwice ⟨9, ⟨some ["BOLD"], none⟩, false⟩ "ITALIC" "BOLD"
        (applyStyleTwice ⟨9, ⟨some ["BOLD"], none⟩, false⟩ "BOLD" "ITALIC"
          Heap.init).2).1.getStyle ↔
      t ∈ (applyStyleTwice ⟨9, ⟨some ["BOLD"], none⟩, false⟩ "BOLD" "ITALIC"
        Heap.init).1.getStyle) ∧
    (("BOLD" = "ITALIC" ∨
        "BOLD" ∈ (CharacterMetadata.mk 9 ⟨some ["BOLD"], none⟩ false).getStyle ∨
        "ITALIC" ∈ (CharacterMetadata.mk 9 ⟨some ["BOLD"], none⟩ false).getStyle) →
      (applyStyleTwice ⟨9, ⟨some ["BOLD"], none⟩, false⟩ "ITALIC" "BOLD"
        (applyStyleTwice ⟨9, ⟨some ["BOLD"], none⟩, false⟩ "BOLD" "ITALIC" Heap.init).2).1 =
      (applyStyleTwice ⟨9, ⟨some ["BOLD"], none⟩, false⟩ "BOLD" "ITALIC" Heap.init).1) :=
  applyStyle_order ⟨9, ⟨some ["BOLD"], none⟩, false⟩ "BOLD" "ITALIC" Heap.init
    (Heap.Steps.refl _)

/-- C19 fails as stated: from the state after module load, BOLD then ITALIC applied to `EMPTY`
gives the instance with the ordered style set BOLD, ITALIC, and ITALIC then BOLD gives
another instance, with the ordered style set ITALIC, BOLD. -/
theorem applyStyle_order_counterexample :
    (applyStyleTwice CharacterMetadata.EMPTY "BOLD" "ITALIC" Heap.init).1.getStyle =
      ["BOLD", "ITALIC"] ∧
    (applyStyleTwice CharacterMetadata.EMPTY "ITALIC" "BOLD"
      (applyStyleTwice CharacterMetadata.EMPTY "BOLD" "ITALIC" Heap.init).2).1.getStyle =
      ["ITALIC", "BOLD"] ∧
    (applyStyleTwice CharacterMetadata.EMPTY "ITALIC" "BOLD"
      (applyStyleTwice CharacterMetadata.EMPTY "BOLD" "ITALIC" Heap.init).2).1 ≠
      (applyStyleTwice CharacterMetadata.EMPTY "BOLD" "ITALIC" Heap.init).1 := by
  refine ⟨by decide, by decide, by decide⟩

end DraftJS
